import Mathlib

/-!
A shallow embedding of the reclist package (scanner.go, writer.go and the
package file defining Record) and proofs about it.  Go strings are modelled
as lists of characters (`Str`), the input stream of a `Scanner` as the list
of characters not yet consumed, and each reading loop of the source as a
fuel-indexed recursive function; every loop of the source consumes at least
one character per iteration, so fuel `input.length + 1` always suffices and
is what the top-level wrappers pass.  Go `error` results are modelled with
`Option`: `none` is the `io.EOF` outcome (an in-memory stream produces no
other read error).  `panic` is modelled by a `none` result.
-/

set_option maxHeartbeats 1000000
set_option maxRecDepth 8192

/-- Go strings, modelled as lists of characters. -/
abbrev Str := List Char

/-- Go unicode.IsSpace: the Unicode White_Space property. -/
def isSpace (c : Char) : Bool :=
  (decide (9 ≤ c.toNat) && decide (c.toNat ≤ 13)) || c.toNat == 32 ||
  c.toNat == 0x85 || c.toNat == 0xA0 || c.toNat == 0x1680 ||
  (decide (0x2000 ≤ c.toNat) && decide (c.toNat ≤ 0x200A)) ||
  c.toNat == 0x2028 || c.toNat == 0x2029 || c.toNat == 0x202F ||
  c.toNat == 0x205F || c.toNat == 0x3000

/-- Go unicode.ToLower applied to one character, modelled on the ASCII
letters (the only case mapping this development exercises). -/
def toLowerChar (c : Char) : Char :=
  if 'A' ≤ c ∧ c ≤ 'Z' then Char.ofNat (c.toNat + 32) else c

/-- Go strings.ToLower. -/
def toLower (s : Str) : Str := s.map toLowerChar

/-- Go strings.TrimSpace, left half: drop leading White_Space characters. -/
def trimLeft : Str → Str
  | [] => []
  | c :: cs => if isSpace c then trimLeft cs else c :: cs

/-- Go strings.TrimSpace, right half: drop trailing White_Space characters. -/
def trimRight : Str → Str
  | [] => []
  | c :: cs =>
    let r := trimRight cs
    if r = [] ∧ isSpace c then [] else c :: r

/-- Go strings.TrimSpace. -/
def trimSpace (s : Str) : Str := trimLeft (trimRight s)

/-- Helper of `fields`: `cur` holds the current word, reversed. -/
def fieldsAux : Str → Str → List Str
  | cur, [] => if cur = [] then [] else [cur.reverse]
  | cur, c :: cs =>
    if isSpace c then
      if cur = [] then fieldsAux [] cs else cur.reverse :: fieldsAux [] cs
    else fieldsAux (c :: cur) cs

/-- Go strings.Fields: split around runs of White_Space characters. -/
def fields (s : Str) : List Str := fieldsAux [] s

/-- Go strings.Join. -/
def joinSep (sep : Str) : List Str → Str
  | [] => []
  | [x] => x
  | x :: y :: xs => x ++ sep ++ joinSep sep (y :: xs)

/-- The normalization `strings.ToLower(strings.Join(strings.Fields(s), "-"))`
that Record.Set, Record.Get and NewRecord apply to keys and to the type. -/
def normKey (s : Str) : Str := toLower (joinSep ['-'] (fields s))

/-- The normalization `strings.Join(strings.Fields(s), " ")` that NewRecord
applies to the ID. -/
def normID (s : Str) : Str := joinSep [' '] (fields s)

/-- Lexicographic (byte/code-point) order on strings, as used by
sort.Strings; on UTF-8 text byte order is code-point order. -/
def strLt : Str → Str → Bool
  | [], [] => false
  | [], _ :: _ => true
  | _ :: _, [] => false
  | a :: as, b :: bs => decide (a.toNat < b.toNat) || (a == b && strLt as bs)

/-- Insertion into the association list modelling the Go map
`map[string]string`, keeping keys strictly sorted (the model's normal form
for a finite map). -/
def mapInsert (k v : Str) : List (Str × Str) → List (Str × Str)
  | [] => [(k, v)]
  | (k1, v1) :: rest =>
    if strLt k k1 then (k, v) :: (k1, v1) :: rest
    else if k = k1 then (k, v) :: rest
    else (k1, v1) :: mapInsert k v rest

/-- Go `delete(m, k)` on the association-list model. -/
def mapErase (k : Str) : List (Str × Str) → List (Str × Str)
  | [] => []
  | (k1, v1) :: rest => if k = k1 then rest else (k1, v1) :: mapErase k rest

/-- Go `m[k]` (zero value `""` when absent) on the association-list model. -/
def mapLookup (k : Str) : List (Str × Str) → Str
  | [] => []
  | (k1, v1) :: rest => if k = k1 then v1 else mapLookup k rest

/-- Insert into a sorted list of strings (helper of `sortStrs`). -/
def insertSorted (x : Str) : List Str → List Str
  | [] => [x]
  | y :: ys => if strLt x y then x :: y :: ys else y :: insertSorted x ys

/-- Go sort.Strings, modelled as insertion sort. -/
def sortStrs : List Str → List Str
  | [] => []
  | x :: xs => insertSorted x (sortStrs xs)

/-- Record holds the information of a reclist record (package file). -/
structure Record where
  id : Str
  typ : Str
  data : List (Str × Str)
deriving DecidableEq

/-- NewRecord returns a new record with the given type and ID, or `none`
(the Go nil) when either normalizes to empty. -/
def NewRecord (typ ID : Str) : Option Record :=
  let t := normKey typ
  if t = [] then none
  else
    let i := normID ID
    if i = [] then none
    else some ⟨i, t, []⟩

/-- Record.Get: the value associated with the given key, after key
normalization; empty when absent. -/
def Record.Get (r : Record) (key : Str) : Str := mapLookup (normKey key) r.data

/-- Record.Set: normalize the key (empty key: no-op), trim the value;
an empty trimmed value deletes the key, otherwise the value is stored. -/
def Record.Set (r : Record) (key value : Str) : Record :=
  let k := normKey key
  if k = [] then r
  else
    let v := trimSpace value
    if v = [] then ⟨r.id, r.typ, mapErase k r.data⟩
    else ⟨r.id, r.typ, mapInsert k v r.data⟩

/-- Record.Keys: nil for an empty record, else the keys sorted. -/
def Record.Keys (r : Record) : List Str :=
  if r.data = [] then [] else sortStrs (r.data.map Prod.fst)

/-! ## Scanner -/

/-- The per-scan cursor: the unconsumed input and the diagnostic line
counter (fields `r` and `line` of the Go Scanner). -/
structure ScanState where
  input : Str
  line : Nat
deriving DecidableEq

/-- Scanner.readRune: reads one rune, folding CR LF into LF.  A lone CR
followed by another rune is returned as CR with that rune unread; a CR at
the very end of the stream is consumed and the second read's error (EOF)
is returned, which every caller treats as end of data. -/
def readRune : Str → Option (Char × Str)
  | [] => none
  | c :: cs =>
    if c = '\r' then
      match cs with
      | [] => none
      | d :: ds => if d = '\n' then some ('\n', ds) else some ('\r', d :: ds)
    else some (c, cs)

/-- bufio.Reader.ReadString up to and including a newline: returns the raw
bytes read, whether the delimiter was found (false models the EOF error),
and the rest of the stream. -/
def readLine : Str → Str × Bool × Str
  | [] => ([], false, [])
  | c :: cs =>
    if c = '\n' then (['\n'], true, cs)
    else
      let r := readLine cs
      (c :: r.1, r.2.1, r.2.2)

/-- Index of the first occurrence of a character (strings.Index for a
one-character pattern; `none` models the -1 result). -/
def idxOf (c : Char) : Str → Option Nat
  | [] => none
  | d :: ds => if d = c then some 0 else (idxOf c ds).map (· + 1)

/-- Scanner.skip: read runes up to and including `delim`, or until the
stream ends (the caller ignores the error). -/
def skip (fuel : Nat) (delim : Char) (cs : Str) : Str :=
  match fuel with
  | 0 => cs
  | fuel + 1 =>
    match readRune cs with
    | none => cs
    | some (c, rest) => if c = delim then rest else skip fuel delim rest

/-- The second loop of Scanner.parseKey: accumulate the key until a colon
(delimiter `':'`) or a newline (empty key, delimiter `'\n'`); a run of
spaces inside the key becomes a single `'-'`.  `none` models a read
error (end of data). -/
def parseKeyAcc (fuel : Nat) (b : Str) (space : Bool) (st : ScanState) :
    Option (Str × Char) × ScanState :=
  match fuel with
  | 0 => (none, st)
  | fuel + 1 =>
    match readRune st.input with
    | none => (none, st)
    | some (c, rest) =>
      if c = '\n' then (some ([], '\n'), ⟨rest, st.line + 1⟩)
      else if isSpace c then parseKeyAcc fuel b true ⟨rest, st.line⟩
      else if c = ':' then (some (b, ':'), ⟨rest, st.line⟩)
      else parseKeyAcc fuel (b ++ (if space then ['-'] else []) ++ [c]) false ⟨rest, st.line⟩

/-- Scanner.parseKey: skip blank space, blank lines and comment lines; an
`'@'` in key position is unread and reported with delimiter `'@'`;
otherwise the key is accumulated by `parseKeyAcc`. -/
def parseKey (fuel : Nat) (st : ScanState) : Option (Str × Char) × ScanState :=
  match fuel with
  | 0 => (none, st)
  | fuel + 1 =>
    match readRune st.input with
    | none => (none, st)
    | some (c, rest) =>
      if c = '\n' then parseKey fuel ⟨rest, st.line + 1⟩
      else if isSpace c then parseKey fuel ⟨rest, st.line⟩
      else if c = '#' then parseKey fuel ⟨skip (rest.length + 1) '\n' rest, st.line + 1⟩
      else if c = '@' then (some ([], '@'), st)
      else parseKeyAcc (st.input.length + 1) [] false st

/-- The cell written by Scanner.quoteValue for one content character:
a pending paragraph flag emits a newline first, else a pending space flag
emits one space. -/
def qpush (b : Str) (space line : Bool) (c : Char) : Str :=
  b ++ (if line then ['\n'] else if space then [' '] else []) ++ [c]

/-- Scanner.quoteValue: parse a quoted, possibly multiline value.  Any run
of newlines (with surrounding indentation) inside the quotes becomes one
embedded newline before the next content character; other space runs
become one space; a backslash makes the next rune literal content; at end
of stream the accumulated value is returned if non-empty (`none` models
the error returned when nothing was accumulated). -/
def quoteValue (fuel : Nat) (b : Str) (first space line : Bool) (st : ScanState) :
    Option Str × ScanState :=
  match fuel with
  | 0 => (none, st)
  | fuel + 1 =>
    match readRune st.input with
    | none => (if b = [] then none else some b, st)
    | some (c, rest) =>
      if c = '\n' then
        quoteValue fuel b first (if first then space else false)
          (if first then line else true) ⟨rest, st.line + 1⟩
      else if isSpace c then
        quoteValue fuel b first (if first || line then space else true) line ⟨rest, st.line⟩
      else if c = '"' then (some b, ⟨rest, st.line⟩)
      else if c = '\\' then
        match readRune rest with
        | none => quoteValue fuel b first space line ⟨rest, st.line⟩
        | some (d, rest1) => quoteValue fuel (qpush b space line d) false false false ⟨rest1, st.line⟩
      else quoteValue fuel (qpush b space line c) false false false ⟨rest, st.line⟩

/-- Scanner.parseValue: skip leading space; a newline first means an empty
value; a quote delegates to `quoteValue`; otherwise the rest of the raw
line, newline included, is the value (via ReadString, which reads raw
bytes and does not touch the line counter; its EOF error, when no newline
ends the stream, makes the caller discard the value). -/
def parseValue (fuel : Nat) (st : ScanState) : Option Str × ScanState :=
  match fuel with
  | 0 => (none, st)
  | fuel + 1 =>
    match readRune st.input with
    | none => (none, st)
    | some (c, rest) =>
      if c = '\n' then (some [], ⟨rest, st.line + 1⟩)
      else if isSpace c then parseValue fuel ⟨rest, st.line⟩
      else if c = '"' then quoteValue (rest.length + 1) [] true false false ⟨rest, st.line⟩
      else
        let r := readLine st.input
        if r.2.1 then (some r.1, ⟨r.2.2, st.line⟩)
        else (none, ⟨r.2.2, st.line⟩)

/-- The header loop of Scanner.parseRecord: count the line, read one raw
line; skip blank lines, comment lines, lines not starting with `'@'`,
lines whose `'='` is missing or at index 0, and lines NewRecord rejects;
stop at end of stream (`none`) or at the first good header. -/
def parseHeader (fuel : Nat) (st : ScanState) : Option Record × ScanState :=
  match fuel with
  | 0 => (none, st)
  | fuel + 1 =>
    let n := st.line + 1
    let r := readLine st.input
    if r.2.1 = false then (none, ⟨r.2.2, n⟩)
    else
      let st1 : ScanState := ⟨r.2.2, n⟩
      match trimSpace r.1 with
      | [] => parseHeader fuel st1
      | c :: l =>
        if c = '#' then parseHeader fuel st1
        else if c ≠ '@' then parseHeader fuel st1
        else
          match idxOf '=' l with
          | none => parseHeader fuel st1
          | some i =>
            if i < 1 then parseHeader fuel st1
            else
              match NewRecord (l.take i) (l.drop (i + 1)) with
              | none => parseHeader fuel st1
              | some rec => (some rec, st1)

/-- The data loop of Scanner.parseRecord: parse keys and values until a
read error or a next header (delimiter `'@'`); an empty key line
(delimiter `'\n'`) is skipped; otherwise the value is parsed (a read
error there also ends the record) and Record.Set is called with it. -/
def parseFields (fuel : Nat) (rec : Record) (st : ScanState) : Record × ScanState :=
  match fuel with
  | 0 => (rec, st)
  | fuel + 1 =>
    match parseKey (st.input.length + 1) st with
    | (none, st1) => (rec, st1)
    | (some (key, delim), st1) =>
      if delim = '@' then (rec, st1)
      else if delim = '\n' then parseFields fuel rec st1
      else
        match parseValue (st1.input.length + 1) st1 with
        | (none, st2) => (rec, st2)
        | (some value, st2) => parseFields fuel (rec.Set key value) st2

/-- Scanner.parseRecord: read the header, then the record data; `none`
models the io.EOF error when the stream ends while seeking a header. -/
def parseRecord (st : ScanState) : Option Record × ScanState :=
  match parseHeader (st.input.length + 1) st with
  | (none, st1) => (none, st1)
  | (some rec, st1) =>
    let r := parseFields (st1.input.length + 1) rec st1
    (some r.1, r.2)

/-- The Scanner: closed flag, the error of a failed read (never set in the
model, where the in-memory stream only ever produces io.EOF), the cursor,
and the pending record for the Record method. -/
structure Scanner where
  closed : Bool
  err : Option String
  state : ScanState
  pending : Option Record
deriving DecidableEq

/-- NewScanner over an in-memory stream. -/
def NewScanner (input : Str) : Scanner :=
  ⟨false, none, ⟨input, 0⟩, none⟩

/-- The loop of Scanner.Scan: parse records, discarding any with zero
fields, until one with data is found (kept for Record) or the stream
ends (the scanner closes; an io.EOF leaves `err` unset). -/
def scanLoop (fuel : Nat) (sc : Scanner) : Bool × Scanner :=
  match fuel with
  | 0 => (false, sc)
  | fuel + 1 =>
    match parseRecord sc.state with
    | (none, st1) => (false, ⟨true, sc.err, st1, sc.pending⟩)
    | (some rec, st1) =>
      if rec.data = [] then scanLoop fuel ⟨sc.closed, sc.err, st1, sc.pending⟩
      else (true, ⟨sc.closed, sc.err, st1, some rec⟩)

/-- Scanner.Scan: false immediately on a closed scanner, else the loop. -/
def Scanner.Scan (sc : Scanner) : Bool × Scanner :=
  if sc.closed then (false, sc) else scanLoop (sc.state.input.length + 1) sc

/-- Scanner.Record: panics (`none`) when no record is pending; otherwise
returns the pending record and clears it. -/
def Scanner.Record (sc : Scanner) : Option (Record × Scanner) :=
  match sc.pending with
  | none => none
  | some r => some (r, ⟨sc.closed, sc.err, sc.state, none⟩)

/-- Scanner.Err: the non-EOF error encountered during iteration. -/
def Scanner.Err (sc : Scanner) : Option String := sc.err

/-- The record delivered by one Scan of a fresh scanner over `input`
(`none` when Scan reports no record). -/
def scanOne (input : Str) : Option Record :=
  let r := Scanner.Scan (NewScanner input)
  if r.1 then r.2.pending else none

/-! ## Writer -/

/-- The loop of Writer.writeQuoted over the runs of the value: newlines
seen become a pending paragraph, other space a pending single space; a
content character first flushes a paragraph as a newline plus a two-tab
indent, or a pending space as one space, and is emitted with quotes and
backslashes escaped. -/
def wq (first space line : Bool) : Str → Str
  | [] => []
  | c :: u =>
    if c = '\n' then
      wq first (if first then space else false) (if first then line else true) u
    else if isSpace c then
      wq first (if first || line then space else true) line u
    else
      (if line then ['\n', '\t', '\t'] else if space then [' '] else []) ++
      (if c = '"' then ['\\', '"'] else if c = '\\' then ['\\', '\\'] else [c]) ++
      wq false false false u

/-- Writer.writeQuoted: the quoted form of a field whose value holds a
newline. -/
def writeQuoted (key value : Str) : Str :=
  ('\t' :: key ++ (if key.length < 6 then [':', '\t', '"'] else [':', ' ', '"'])) ++
  wq true false false value ++ ['"', '\n']

/-- Writer.writeField: quoted when the value holds a newline, else one
unquoted line with a tab after the colon for keys shorter than 6 and a
space otherwise. -/
def writeField (key value : Str) : Str :=
  if '\n' ∈ value then writeQuoted key value
  else if key.length < 6 then '\t' :: key ++ ':' :: '\t' :: value ++ ['\n']
  else '\t' :: key ++ ':' :: ' ' :: value ++ ['\n']

/-- Writer.Write: nothing for a record without fields or without ID or
type; else the header line followed by each field in sorted key order,
fields with an empty value skipped. -/
def Writer.Write (rec : Record) : Str :=
  let keys := rec.Keys
  if keys = [] then []
  else if rec.id = [] ∨ rec.typ = [] then []
  else
    ('@' :: rec.typ ++ '=' :: rec.id ++ ['\n']) ++
    (keys.map (fun key =>
      let value := rec.Get key
      if value = [] then [] else writeField key value)).flatten

/-! ## Predicates used to state the claims -/

/-- A value is in canonical multiline form when, read after a content
character, every whitespace run is a single space or a single newline
with content on both sides.  This is the class of values on which the
quoted encode/decode pair of this package is the identity. -/
def canonAux : Str → Bool
  | [] => true
  | [c] => !isSpace c
  | c :: d :: u =>
    if isSpace c then (c == ' ' || c == '\n') && !isSpace d && canonAux (d :: u)
    else canonAux (d :: u)

/-- Canonical multiline value: non-empty, starts with content, and
`canonAux` holds. -/
def canonVal (v : Str) : Bool :=
  match v with
  | [] => false
  | c :: _ => !isSpace c && canonAux v

/-- The bytes Writer.writeQuoted emits for one character of a canonical
value: a newline becomes a newline plus the two-tab indent, quotes and
backslashes are escaped, everything else is copied. -/
def encChar (c : Char) : Str :=
  if c = '\n' then ['\n', '\t', '\t']
  else if c = '"' then ['\\', '"']
  else if c = '\\' then ['\\', '\\']
  else [c]

/-- The body Writer.writeQuoted emits for a whole canonical value. -/
def encCanon (v : Str) : Str := (v.map encChar).flatten

/-- A plain word: non-empty, no whitespace, no quote, no backslash. -/
def wordNE (w : Str) : Bool :=
  !w.isEmpty && w.all (fun c => !isSpace c && c != '"' && c != '\\')

/-- A stored key that survives the round trip: non-empty, normalized
(fixed under the key normalization, hence without whitespace), without a
colon, and not beginning with the at or sharp sign. -/
def fieldKeyOK (k : Str) : Bool :=
  !k.isEmpty && k.all (fun c => !isSpace c && c != ':') &&
  (match k with | [] => false | c :: _ => c != '@' && c != '#') &&
  (normKey k == k)

/-- A stored value that survives the round trip: trimmed and non-empty;
a value holding a newline must be canonical, a single-line value must
not begin with a quote. -/
def fieldValOK (v : Str) : Bool :=
  (trimSpace v == v) && !v.isEmpty &&
  (if '\n' ∈ v then canonVal v
   else match v with | [] => false | c :: _ => c != '"')

/-- A stored type that survives the round trip: non-empty, normalized,
without whitespace and without an equal sign. -/
def typOK (t : Str) : Bool :=
  !t.isEmpty && t.all (fun c => !isSpace c && c != '=') && (normKey t == t)

/-- A stored ID that survives the round trip: non-empty, fixed under the
ID normalization, with plain spaces as its only whitespace and content at
both ends. -/
def idOK (i : Str) : Bool :=
  !i.isEmpty && (normID i == i) && i.all (fun c => !isSpace c || c == ' ') &&
  (match i.head? with | some c => !isSpace c | none => false) &&
  (match i.getLast? with | some c => !isSpace c | none => false)

/-- The record data keys are strictly ascending (hence unique), as the
sorted-association-list model of the Go map maintains. -/
def keysSorted : List (Str × Str) → Bool
  | [] => true
  | [_] => true
  | a :: b :: l => strLt a.1 b.1 && keysSorted (b :: l)

/-- The invariant every Record reachable through NewRecord and Set
satisfies: sorted unique keys, no empty key and no empty value stored. -/
def RecordWF (r : Record) : Bool :=
  keysSorted r.data && r.data.all (fun kv => !kv.1.isEmpty && !kv.2.isEmpty)

/-- The class of records for which the amended round-trip claim is
proved: stored in the normalized, trimmed form the Record API maintains,
type without an equal sign, keys without colons and not starting a
comment or header, values canonical when multiline and not starting with
a quote when single-line. -/
def recordOK (r : Record) : Bool :=
  typOK r.typ && idOK r.id && !r.data.isEmpty &&
  r.data.all (fun kv => fieldKeyOK kv.1 && fieldValOK kv.2) &&
  keysSorted r.data

/-! ## Basic character and string lemmas -/

theorem char_eq_of_toNat {a b : Char} (h : a.toNat = b.toNat) : a = b := by
  calc a = Char.ofNat a.toNat := (Char.ofNat_toNat a).symm
  _ = Char.ofNat b.toNat := by rw [h]
  _ = b := Char.ofNat_toNat b

theorem not_space_ne_cr {c : Char} (h : isSpace c = false) : c ≠ '\r' := by
  intro e; subst e; exact absurd h (by decide)

theorem not_space_ne_nl {c : Char} (h : isSpace c = false) : c ≠ '\n' := by
  intro e; subst e; exact absurd h (by decide)

theorem not_space_ne_tab {c : Char} (h : isSpace c = false) : c ≠ '\t' := by
  intro e; subst e; exact absurd h (by decide)

theorem readRune_cons (c : Char) (cs : Str) (h : c ≠ '\r') :
    readRune (c :: cs) = some (c, cs) := by
  simp [readRune, h]

theorem readLine_append (l rest : Str) (h : '\n' ∉ l) :
    readLine (l ++ '\n' :: rest) = (l ++ ['\n'], true, rest) := by
  induction l with
  | nil => simp [readLine]
  | cons c l ih =>
    have hc : c ≠ '\n' := by intro e; exact h (by simp [e])
    have hl : '\n' ∉ l := by intro e; exact h (by simp [e])
    simp [readLine, hc, ih hl]

theorem readLine_eof (l : Str) (h : '\n' ∉ l) : readLine l = (l, false, []) := by
  induction l with
  | nil => simp [readLine]
  | cons c l ih =>
    have hc : c ≠ '\n' := by intro e; exact h (by simp [e])
    have hl : '\n' ∉ l := by intro e; exact h (by simp [e])
    simp [readLine, hc, ih hl]

theorem trimLeft_cons (c : Char) (cs : Str) (h : isSpace c = false) :
    trimLeft (c :: cs) = c :: cs := by
  simp [trimLeft, h]

theorem trimRight_cons (c : Char) (cs : Str) (h : isSpace c = false) :
    trimRight (c :: cs) = c :: trimRight cs := by
  simp [trimRight, h]

theorem trimRight_append (t l : Str) (ht : ∀ c ∈ t, isSpace c = false) :
    trimRight (t ++ l) = t ++ trimRight l := by
  induction t with
  | nil => simp
  | cons c t ih =>
    rw [List.cons_append, trimRight_cons c _ (ht c (by simp)),
      ih (fun d hd => ht d (by simp [hd]))]
    rfl

theorem trimRight_spaces (l : Str) (h : ∀ c ∈ l, isSpace c = true) :
    trimRight l = [] := by
  induction l with
  | nil => rfl
  | cons c l ih =>
    simp [trimRight, ih (fun d hd => h d (by simp [hd])), h c (by simp)]

theorem trimRight_last (l : Str) (c : Char) (h : l.getLast? = some c)
    (hc : isSpace c = false) : trimRight l = l := by
  induction l with
  | nil => simp at h
  | cons d l ih =>
    cases l with
    | nil =>
      simp at h
      subst h
      simp [trimRight, hc]
    | cons e l2 =>
      rw [List.getLast?_cons_cons] at h
      have hl := ih h
      have he : trimRight (d :: e :: l2) =
          if trimRight (e :: l2) = [] ∧ isSpace d then [] else d :: trimRight (e :: l2) := rfl
      rw [he, hl]
      simp

theorem trimSpace_keep (c : Char) (cs : Str) (d : Char) (h1 : isSpace c = false)
    (h2 : (c :: cs).getLast? = some d) (h3 : isSpace d = false) :
    trimSpace (c :: cs) = c :: cs := by
  unfold trimSpace
  rw [trimRight_last _ _ h2 h3, trimLeft_cons _ _ h1]

theorem trimRight_append_space (v : Str) (c : Char) (h : isSpace c = true) :
    trimRight (v ++ [c]) = trimRight v := by
  induction v with
  | nil => simp [trimRight, h]
  | cons d v ih => rw [List.cons_append, trimRight, trimRight, ih]

theorem trimSpace_append_nl (v : Str) : trimSpace (v ++ ['\n']) = trimSpace v := by
  unfold trimSpace
  rw [trimRight_append_space v '\n' (by decide)]

theorem set_trim_congr (r : Record) (k v1 v2 : Str)
    (h : trimSpace v1 = trimSpace v2) : r.Set k v1 = r.Set k v2 := by
  simp only [Record.Set, h]

theorem fieldsAux_nospace (t : Str) : ∀ cur, (∀ c ∈ t, isSpace c = false) →
    (cur ≠ [] ∨ t ≠ []) → fieldsAux cur t = [cur.reverse ++ t] := by
  induction t with
  | nil =>
    intro cur h hne
    rcases hne with hc | ht
    · simp [fieldsAux, hc]
    · exact absurd rfl ht
  | cons c cs ih =>
    intro cur h hne
    rw [fieldsAux]
    simp only [h c (by simp)]
    rw [if_neg (by simp)]
    rw [ih (c :: cur) (fun d hd => h d (by simp [hd])) (Or.inl (by simp))]
    simp

theorem fields_nospace (t : Str) (h : ∀ c ∈ t, isSpace c = false) (hne : t ≠ []) :
    fields t = [t] := by
  unfold fields
  rw [fieldsAux_nospace t [] h (Or.inr hne)]
  simp

theorem normKey_nospace (t : Str) (h : ∀ c ∈ t, isSpace c = false) (hne : t ≠ []) :
    normKey t = toLower t := by
  unfold normKey
  rw [fields_nospace t h hne]
  rfl

theorem toLower_ne_nil (t : Str) (hne : t ≠ []) : toLower t ≠ [] := by
  cases t with
  | nil => exact absurd rfl hne
  | cons c cs => simp [toLower]

theorem idxOf_append (c : Char) (t rest : Str) (h : c ∉ t) :
    idxOf c (t ++ c :: rest) = some t.length := by
  induction t with
  | nil => simp [idxOf]
  | cons d t ih =>
    have hd : d ≠ c := by intro e; exact h (by simp [e])
    have ht : c ∉ t := by intro e; exact h (by simp [e])
    simp [idxOf, hd, ih ht]

/-! ## Order and map lemmas -/

theorem strLt_irrefl (a : Str) : strLt a a = false := by
  induction a with
  | nil => rfl
  | cons c as ih => simp [strLt, ih]

theorem strLt_ne {a b : Str} (h : strLt a b = true) : a ≠ b := by
  intro e; subst e; rw [strLt_irrefl] at h; exact Bool.noConfusion h

theorem strLt_total (a b : Str) (h : a ≠ b) : strLt a b = true ∨ strLt b a = true := by
  induction a generalizing b with
  | nil =>
    cases b with
    | nil => exact absurd rfl h
    | cons d bs => left; rfl
  | cons c as ih =>
    cases b with
    | nil => right; rfl
    | cons d bs =>
      by_cases hc : c = d
      · subst hc
        have has : as ≠ bs := by intro e; exact h (by rw [e])
        rcases ih bs has with h1 | h1
        · left; simp [strLt, h1]
        · right; simp [strLt, h1]
      · have : c.toNat ≠ d.toNat := fun e => hc (char_eq_of_toNat e)
        rcases Nat.lt_or_ge c.toNat d.toNat with h1 | h1
        · left; simp [strLt, h1]
        · right
          have : d.toNat < c.toNat := by omega
          simp [strLt, this]

theorem strLt_asymm : ∀ a b : Str, strLt a b = true → strLt b a = false := by
  intro a
  induction a with
  | nil =>
    intro b h
    cases b with
    | nil => rfl
    | cons d bs => rfl
  | cons c as ih =>
    intro b h
    cases b with
    | nil => exact Bool.noConfusion h
    | cons d bs =>
      simp only [strLt, Bool.or_eq_true, Bool.and_eq_true, decide_eq_true_eq,
        beq_iff_eq] at h
      rw [strLt]
      rcases h with h | ⟨he, h⟩
      · have h1 : ¬ d.toNat < c.toNat := by omega
        have h2 : (d == c) = false := by
          refine beq_eq_false_iff_ne.2 ?_
          intro e
          exact absurd (congrArg Char.toNat e) (by omega)
        simp [h1, h2]
      · subst he
        simp [Nat.lt_irrefl, ih bs h]

theorem strLt_trans : ∀ a b c : Str, strLt a b = true → strLt b c = true →
    strLt a c = true := by
  intro a
  induction a with
  | nil =>
    intro b c h1 h2
    cases b with
    | nil => exact Bool.noConfusion h1
    | cons y bs =>
      cases c with
      | nil => exact Bool.noConfusion h2
      | cons z cs => rfl
  | cons x as ih =>
    intro b c h1 h2
    cases b with
    | nil => exact Bool.noConfusion h1
    | cons y bs =>
      cases c with
      | nil => exact Bool.noConfusion h2
      | cons z cs =>
        simp only [strLt, Bool.or_eq_true, Bool.and_eq_true, decide_eq_true_eq,
          beq_iff_eq] at h1 h2 ⊢
        rcases h1 with h1 | ⟨he1, h1⟩
        · rcases h2 with h2 | ⟨he2, h2⟩
          · left; omega
          · left; have := congrArg Char.toNat he2; omega
        · subst he1
          rcases h2 with h2 | ⟨he2, h2⟩
          · left; omega
          · right; exact ⟨he2, ih bs cs h1 h2⟩

theorem keysSorted_cons (a : Str × Str) (l : List (Str × Str))
    (h : keysSorted (a :: l) = true) :
    keysSorted l = true ∧ ∀ p ∈ l, strLt a.1 p.1 = true := by
  induction l generalizing a with
  | nil => exact ⟨rfl, by simp⟩
  | cons b l2 ih =>
    rw [keysSorted, Bool.and_eq_true] at h
    obtain ⟨hab, hbl⟩ := h
    obtain ⟨hl2, hall⟩ := ih b hbl
    refine ⟨hbl, ?_⟩
    intro p hp
    rcases List.mem_cons.1 hp with rfl | hp
    · exact hab
    · exact strLt_trans _ _ _ hab (hall p hp)

theorem keysSorted_cons_of (a : Str × Str) (l : List (Str × Str))
    (h1 : keysSorted l = true) (h2 : ∀ p ∈ l, strLt a.1 p.1 = true) :
    keysSorted (a :: l) = true := by
  cases l with
  | nil => rfl
  | cons b l2 =>
    rw [keysSorted, Bool.and_eq_true]
    exact ⟨h2 b (by simp), h1⟩

theorem mapInsert_mem (k v : Str) (l : List (Str × Str)) :
    ∀ p ∈ mapInsert k v l, p = (k, v) ∨ p ∈ l := by
  induction l with
  | nil => intro p hp; simp [mapInsert] at hp; left; exact hp
  | cons a l2 ih =>
    intro p hp
    obtain ⟨k1, v1⟩ := a
    rw [mapInsert] at hp
    by_cases h1 : strLt k k1 = true
    · rw [if_pos h1] at hp
      rcases List.mem_cons.1 hp with rfl | hp
      · left; rfl
      · right; exact hp
    · rw [if_neg h1] at hp
      by_cases h2 : k = k1
      · rw [if_pos h2] at hp
        rcases List.mem_cons.1 hp with rfl | hp
        · left; rfl
        · right; exact List.mem_cons_of_mem _ hp
      · rw [if_neg h2] at hp
        rcases List.mem_cons.1 hp with rfl | hp
        · right; exact List.mem_cons_self _ _
        · rcases ih p hp with h | h
          · left; exact h
          · right; exact List.mem_cons_of_mem _ h

theorem mapInsert_sorted (k v : Str) (l : List (Str × Str))
    (h : keysSorted l = true) : keysSorted (mapInsert k v l) = true := by
  induction l with
  | nil => rfl
  | cons a l2 ih =>
    obtain ⟨k1, v1⟩ := a
    obtain ⟨hl2, hall⟩ := keysSorted_cons _ _ h
    rw [mapInsert]
    by_cases h1 : strLt k k1 = true
    · rw [if_pos h1]
      refine keysSorted_cons_of _ _ h ?_
      intro p hp
      rcases List.mem_cons.1 hp with rfl | hp
      · exact h1
      · exact strLt_trans _ _ _ h1 (hall p hp)
    · rw [if_neg h1]
      by_cases h2 : k = k1
      · rw [if_pos h2]
        subst h2
        exact keysSorted_cons_of _ _ hl2 hall
      · rw [if_neg h2]
        rcases strLt_total k k1 h2 with h3 | h3
        · exact absurd h3 h1
        · refine keysSorted_cons_of _ _ (ih hl2) ?_
          intro p hp
          rcases mapInsert_mem k v l2 p hp with rfl | hp
          · exact h3
          · exact hall p hp

theorem mapInsert_append (k v : Str) (l : List (Str × Str))
    (h : ∀ p ∈ l, strLt p.1 k = true) : mapInsert k v l = l ++ [(k, v)] := by
  induction l with
  | nil => rfl
  | cons a l2 ih =>
    obtain ⟨k1, v1⟩ := a
    have h1 : strLt k1 k = true := h (k1, v1) (by simp)
    rw [mapInsert, if_neg (by rw [strLt_asymm _ _ h1]; exact Bool.noConfusion),
      if_neg (Ne.symm (strLt_ne h1)), ih (fun p hp => h p (by simp [hp]))]
    rfl

theorem mapErase_mem (k : Str) (l : List (Str × Str)) :
    ∀ p ∈ mapErase k l, p ∈ l := by
  induction l with
  | nil => intro p hp; exact absurd hp (by simp [mapErase])
  | cons a l2 ih =>
    intro p hp
    obtain ⟨k1, v1⟩ := a
    rw [mapErase] at hp
    by_cases h1 : k = k1
    · rw [if_pos h1] at hp; exact List.mem_cons_of_mem _ hp
    · rw [if_neg h1] at hp
      rcases List.mem_cons.1 hp with rfl | hp
      · exact List.mem_cons_self _ _
      · exact List.mem_cons_of_mem _ (ih p hp)

theorem mapErase_sorted (k : Str) (l : List (Str × Str))
    (h : keysSorted l = true) : keysSorted (mapErase k l) = true := by
  induction l with
  | nil => rfl
  | cons a l2 ih =>
    obtain ⟨k1, v1⟩ := a
    obtain ⟨hl2, hall⟩ := keysSorted_cons _ _ h
    rw [mapErase]
    by_cases h1 : k = k1
    · rw [if_pos h1]; exact hl2
    · rw [if_neg h1]
      refine keysSorted_cons_of _ _ (ih hl2) ?_
      intro p hp
      exact hall p (mapErase_mem k l2 p hp)

theorem mapErase_key_ne (k : Str) (l : List (Str × Str))
    (h : keysSorted l = true) : ∀ p ∈ mapErase k l, p.1 ≠ k := by
  induction l with
  | nil => intro p hp; exact absurd hp (by simp [mapErase])
  | cons a l2 ih =>
    intro p hp
    obtain ⟨k1, v1⟩ := a
    obtain ⟨hl2, hall⟩ := keysSorted_cons _ _ h
    rw [mapErase] at hp
    by_cases h1 : k = k1
    · subst h1
      rw [if_pos rfl] at hp
      exact Ne.symm (strLt_ne (hall p hp))
    · rw [if_neg h1] at hp
      rcases List.mem_cons.1 hp with rfl | hp
      · exact fun e => h1 e.symm
      · exact ih hl2 p hp

theorem mapLookup_not_mem (k : Str) (l : List (Str × Str))
    (h : ∀ p ∈ l, p.1 ≠ k) : mapLookup k l = [] := by
  induction l with
  | nil => rfl
  | cons a l2 ih =>
    obtain ⟨k1, v1⟩ := a
    rw [mapLookup, if_neg (fun e => h (k1, v1) (by simp) e.symm)]
    exact ih (fun p hp => h p (by simp [hp]))

theorem mapLookup_self (k v : Str) (l : List (Str × Str))
    (h : keysSorted l = true) (hm : (k, v) ∈ l) : mapLookup k l = v := by
  induction l with
  | nil => exact absurd hm (by simp)
  | cons a l2 ih =>
    obtain ⟨k1, v1⟩ := a
    obtain ⟨hl2, hall⟩ := keysSorted_cons _ _ h
    rcases List.mem_cons.1 hm with he | hm2
    · rw [mapLookup]
      have : k = k1 ∧ v = v1 := by
        constructor
        · exact congrArg Prod.fst he
        · exact congrArg Prod.snd he
      rw [if_pos this.1]
      exact this.2.symm
    · have hk : k ≠ k1 := by
        have := hall (k, v) hm2
        exact fun e => absurd this (by rw [e, strLt_irrefl]; exact Bool.noConfusion)
      rw [mapLookup, if_neg hk]
      exact ih hl2 hm2

theorem insertSorted_head (x : Str) (l : List Str)
    (h : ∀ y ∈ l, strLt x y = true) : insertSorted x l = x :: l := by
  cases l with
  | nil => rfl
  | cons y l2 => rw [insertSorted, if_pos (h y (by simp))]

theorem sortStrs_sorted_id (l : List (Str × Str)) (h : keysSorted l = true) :
    sortStrs (l.map Prod.fst) = l.map Prod.fst := by
  induction l with
  | nil => rfl
  | cons a l2 ih =>
    obtain ⟨hl2, hall⟩ := keysSorted_cons _ _ h
    rw [List.map_cons, sortStrs, ih hl2]
    refine insertSorted_head _ _ ?_
    intro y hy
    obtain ⟨p, hp, rfl⟩ := List.mem_map.1 hy
    exact hall p hp

theorem insertSorted_mem (x y : Str) (l : List Str) :
    y ∈ insertSorted x l ↔ y = x ∨ y ∈ l := by
  induction l with
  | nil => simp [insertSorted]
  | cons z l2 ih =>
    rw [insertSorted]
    by_cases h1 : strLt x z = true
    · rw [if_pos h1]
      simp [List.mem_cons]
    · rw [if_neg h1]
      simp [List.mem_cons, ih]
      tauto

theorem sortStrs_mem (y : Str) (l : List Str) : y ∈ sortStrs l ↔ y ∈ l := by
  induction l with
  | nil => simp [sortStrs]
  | cons x l2 ih => rw [sortStrs, insertSorted_mem]; simp [ih]

/-! ## Scanner step lemmas -/

theorem parseKey_eof (fuel : Nat) (n : Nat) :
    parseKey fuel ⟨[], n⟩ = (none, ⟨[], n⟩) := by
  cases fuel <;> simp [parseKey, readRune]

theorem parseKey_newline (f : Nat) (s : Str) (n : Nat) :
    parseKey (f + 1) ⟨'\n' :: s, n⟩ = parseKey f ⟨s, n + 1⟩ := by
  rw [parseKey, readRune_cons '\n' s (by decide)]
  simp

theorem parseKey_space (f : Nat) (c : Char) (s : Str) (n : Nat)
    (hc : isSpace c = true) (h1 : c ≠ '\n') (h2 : c ≠ '\r') :
    parseKey (f + 1) ⟨c :: s, n⟩ = parseKey f ⟨s, n⟩ := by
  rw [parseKey, readRune_cons c s h2]
  simp [h1, hc]

theorem parseKey_content (f : Nat) (c : Char) (s : Str) (n : Nat)
    (hc : isSpace c = false) (hp : c ≠ '#') (ha : c ≠ '@') :
    parseKey (f + 1) ⟨c :: s, n⟩ = parseKeyAcc ((c :: s).length + 1) [] false ⟨c :: s, n⟩ := by
  rw [parseKey, readRune_cons c s (not_space_ne_cr hc)]
  simp [not_space_ne_nl hc, hc, hp, ha]

theorem parseKeyAcc_run : ∀ (fuel : Nat) (k b rest : Str) (n : Nat),
    (∀ c ∈ k, isSpace c = false ∧ c ≠ ':') → k.length < fuel →
    parseKeyAcc fuel b false ⟨k ++ ':' :: rest, n⟩ = (some (b ++ k, ':'), ⟨rest, n⟩) := by
  intro fuel
  induction fuel with
  | zero => intro k b rest n hk hf; omega
  | succ f ih =>
    intro k b rest n hk hf
    cases k with
    | nil =>
      rw [parseKeyAcc, List.nil_append, readRune_cons ':' rest (by decide)]
      simp [show (':' : Char) ≠ '\n' by decide, show isSpace ':' = false by decide]
    | cons c k2 =>
      obtain ⟨hcs, hcc⟩ := hk c (by simp)
      rw [parseKeyAcc, List.cons_append, readRune_cons c _ (not_space_ne_cr hcs)]
      simp [not_space_ne_nl hcs, hcs, hcc]
      rw [ih k2 (b ++ [c]) rest n (fun d hd => hk d (by simp [hd])) (by simp at hf ⊢; omega)]
      simp

theorem fieldKeyOK_spec (k : Str) (h : fieldKeyOK k = true) :
    k ≠ [] ∧ (∀ c ∈ k, isSpace c = false ∧ c ≠ ':') ∧
    (∀ c k2, k = c :: k2 → c ≠ '@' ∧ c ≠ '#') ∧ normKey k = k := by
  cases k with
  | nil => exact absurd h (by decide)
  | cons c k2 =>
    unfold fieldKeyOK at h
    simp only [Bool.and_eq_true, List.all_eq_true, Bool.not_eq_true', bne_iff_ne,
      beq_iff_eq] at h
    obtain ⟨⟨⟨_, hall⟩, hhead⟩, hnorm⟩ := h
    refine ⟨by simp, ?_, ?_, hnorm⟩
    · intro d hd
      have := hall d hd
      exact ⟨this.1, this.2⟩
    · intro d l2 he
      rw [List.cons_eq_cons] at he
      obtain ⟨rfl, rfl⟩ := he
      exact hhead

theorem parseKey_field (fuel : Nat) (k rest : Str) (n : Nat)
    (hf : 2 ≤ fuel) (hk : fieldKeyOK k = true) :
    parseKey fuel ⟨'\t' :: (k ++ ':' :: rest), n⟩ = (some (k, ':'), ⟨rest, n⟩) := by
  obtain ⟨f, rfl⟩ : ∃ f, fuel = f + 2 := ⟨fuel - 2, by omega⟩
  obtain ⟨hne, hall, hhead, _⟩ := fieldKeyOK_spec k hk
  rw [show f + 2 = (f + 1) + 1 by rfl,
    parseKey_space (f + 1) '\t' _ n (by decide) (by decide) (by decide)]
  cases k with
  | nil => exact absurd rfl hne
  | cons c k2 =>
    obtain ⟨hcs, hcc⟩ := hall c (by simp)
    obtain ⟨hca, hcp⟩ := hhead c k2 rfl
    rw [List.cons_append, parseKey_content f c _ n hcs hcp hca]
    have step := parseKeyAcc_run ((c :: (k2 ++ ':' :: rest)).length + 1) (c :: k2) [] rest n
      hall (by simp; omega)
    rw [List.cons_append] at step
    rw [step]
    simp

theorem parseValue_newline (f : Nat) (s : Str) (n : Nat) :
    parseValue (f + 1) ⟨'\n' :: s, n⟩ = (some [], ⟨s, n + 1⟩) := by
  rw [parseValue, readRune_cons '\n' _ (by decide)]
  simp

theorem parseValue_space (f : Nat) (c : Char) (s : Str) (n : Nat)
    (hc : isSpace c = true) (h1 : c ≠ '\n') (h2 : c ≠ '\r') :
    parseValue (f + 1) ⟨c :: s, n⟩ = parseValue f ⟨s, n⟩ := by
  rw [parseValue, readRune_cons c s h2]
  simp [h1, hc]

theorem parseValue_raw (f : Nat) (c : Char) (v rest : Str) (n : Nat)
    (hc : isSpace c = false) (hq : c ≠ '"') (hnl : '\n' ∉ c :: v) :
    parseValue (f + 1) ⟨c :: v ++ '\n' :: rest, n⟩
      = (some (c :: v ++ ['\n']), ⟨rest, n⟩) := by
  rw [parseValue, List.cons_append, readRune_cons c _ (not_space_ne_cr hc)]
  have hrl := readLine_append (c :: v) rest hnl
  rw [List.cons_append] at hrl
  simp [not_space_ne_nl hc, hc, hq, hrl]

theorem parseValue_single (fuel : Nat) (sp c : Char) (v rest : Str) (n : Nat)
    (hf : 2 ≤ fuel) (hsp : isSpace sp = true) (hsp1 : sp ≠ '\n') (hsp2 : sp ≠ '\r')
    (hc : isSpace c = false) (hq : c ≠ '"') (hnl : '\n' ∉ c :: v) :
    parseValue fuel ⟨sp :: (c :: v ++ '\n' :: rest), n⟩
      = (some (c :: v ++ ['\n']), ⟨rest, n⟩) := by
  obtain ⟨f, rfl⟩ : ∃ f, fuel = f + 2 := ⟨fuel - 2, by omega⟩
  rw [show f + 2 = (f + 1) + 1 by rfl, parseValue_space (f + 1) sp _ n hsp hsp1 hsp2]
  exact parseValue_raw f c v rest n hc hq hnl

theorem parseValue_quoted (fuel : Nat) (sp : Char) (q : Str) (n : Nat)
    (hf : 2 ≤ fuel) (hsp : isSpace sp = true) (hsp1 : sp ≠ '\n') (hsp2 : sp ≠ '\r') :
    parseValue fuel ⟨sp :: '"' :: q, n⟩
      = quoteValue (q.length + 1) [] true false false ⟨q, n⟩ := by
  obtain ⟨f, rfl⟩ : ∃ f, fuel = f + 2 := ⟨fuel - 2, by omega⟩
  rw [show f + 2 = (f + 1) + 1 by rfl, parseValue_space (f + 1) sp _ n hsp hsp1 hsp2]
  rw [parseValue, readRune_cons '"' _ (by decide)]
  simp [show ('"' : Char) ≠ '\n' by decide, show isSpace '"' = false by decide]

theorem qv_step_quote (fuel : Nat) (b : Str) (fi sp ln : Bool) (cs : Str) (n : Nat)
    (hf : 0 < fuel) :
    quoteValue fuel b fi sp ln ⟨'"' :: cs, n⟩ = (some b, ⟨cs, n⟩) := by
  obtain ⟨f, rfl⟩ : ∃ f, fuel = f + 1 := ⟨fuel - 1, by omega⟩
  rw [quoteValue, readRune_cons '"' _ (by decide)]
  simp [show ('"' : Char) ≠ '\n' by decide, show isSpace '"' = false by decide]

theorem qv_step_newline (f : Nat) (b : Str) (sp ln : Bool) (cs : Str) (n : Nat) :
    quoteValue (f + 1) b false sp ln ⟨'\n' :: cs, n⟩
      = quoteValue f b false false true ⟨cs, n + 1⟩ := by
  rw [quoteValue, readRune_cons '\n' _ (by decide)]
  simp

theorem qv_step_space (f : Nat) (b : Str) (sp ln : Bool) (c : Char) (cs : Str) (n : Nat)
    (hc : isSpace c = true) (h1 : c ≠ '\n') (h2 : c ≠ '\r') :
    quoteValue (f + 1) b false sp ln ⟨c :: cs, n⟩
      = quoteValue f b false (if ln then sp else true) ln ⟨cs, n⟩ := by
  rw [quoteValue, readRune_cons c _ h2]
  simp [h1, hc]

theorem qv_step_content (f : Nat) (b : Str) (fi sp ln : Bool) (c : Char) (cs : Str) (n : Nat)
    (hc : isSpace c = false) (h1 : c ≠ '"') (h2 : c ≠ '\\') :
    quoteValue (f + 1) b fi sp ln ⟨c :: cs, n⟩
      = quoteValue f (qpush b sp ln c) false false false ⟨cs, n⟩ := by
  rw [quoteValue, readRune_cons c _ (not_space_ne_cr hc)]
  simp [not_space_ne_nl hc, hc, h1, h2]

theorem qv_step_escape (f : Nat) (b : Str) (fi sp ln : Bool) (d : Char) (cs : Str) (n : Nat)
    (hd : d ≠ '\r') :
    quoteValue (f + 1) b fi sp ln ⟨'\\' :: d :: cs, n⟩
      = quoteValue f (qpush b sp ln d) false false false ⟨cs, n⟩ := by
  rw [quoteValue, readRune_cons '\\' _ (by decide)]
  simp [show ('\\' : Char) ≠ '\n' by decide, show isSpace '\\' = false by decide,
    show ('\\' : Char) ≠ '"' by decide, readRune_cons d _ hd]

theorem qv_eof (fuel : Nat) (b : Str) (fi sp ln : Bool) (n : Nat)
    (hf : 0 < fuel) (hb : b ≠ []) :
    quoteValue fuel b fi sp ln ⟨[], n⟩ = (some b, ⟨[], n⟩) := by
  obtain ⟨f, rfl⟩ : ∃ f, fuel = f + 1 := ⟨fuel - 1, by omega⟩
  rw [quoteValue]
  simp [readRune, hb]

/-! ## Canonical quoted values: encode and decode -/

theorem canonAux_cons_content (c : Char) (u : Str) (hc : isSpace c = false) :
    canonAux (c :: u) = canonAux u := by
  cases u with
  | nil => simp [canonAux, hc]
  | cons d u2 => simp [canonAux, hc]

theorem canonAux_sep_shape (c : Char) (u : Str) (hc : isSpace c = true)
    (h : canonAux (c :: u) = true) : ∃ d u2, u = d :: u2 := by
  cases u with
  | nil => rw [canonAux] at h; simp [hc] at h
  | cons d u2 => exact ⟨d, u2, rfl⟩

theorem canonAux_sep (c d : Char) (u : Str) (hc : isSpace c = true)
    (h : canonAux (c :: d :: u) = true) :
    (c = ' ' ∨ c = '\n') ∧ isSpace d = false ∧ canonAux (d :: u) = true := by
  rw [canonAux, if_pos (by simp [hc])] at h
  simp only [Bool.and_eq_true, Bool.or_eq_true, beq_iff_eq, Bool.not_eq_true'] at h
  rcases h with ⟨⟨h1, h2⟩, h3⟩
  exact ⟨h1, h2, h3⟩

theorem encCanon_nil : encCanon [] = [] := rfl

theorem encCanon_cons (c : Char) (u : Str) :
    encCanon (c :: u) = encChar c ++ encCanon u := by
  simp [encCanon]

theorem encChar_content (c : Char) (h1 : c ≠ '\n') (h2 : c ≠ '"') (h3 : c ≠ '\\') :
    encChar c = [c] := by
  simp [encChar, h1, h2, h3]

theorem encChar_length_pos (c : Char) : 0 < (encChar c).length := by
  unfold encChar
  by_cases h1 : c = '\n' <;> by_cases h2 : c = '"' <;> by_cases h3 : c = '\\' <;>
    simp [h1, h2, h3]

theorem qv_step_enc (f : Nat) (b : Str) (fi sp ln : Bool) (c : Char) (cs : Str) (n : Nat)
    (hc : isSpace c = false) :
    quoteValue (f + 1) b fi sp ln ⟨encChar c ++ cs, n⟩
      = quoteValue f (qpush b sp ln c) false false false ⟨cs, n⟩ := by
  by_cases h1 : c = '"'
  · subst h1
    rw [show encChar '"' = ['\\', '"'] by decide]
    exact qv_step_escape f b fi sp ln '"' cs n (by decide)
  · by_cases h2 : c = '\\'
    · subst h2
      rw [show encChar '\\' = ['\\', '\\'] by decide]
      exact qv_step_escape f b fi sp ln '\\' cs n (by decide)
    · rw [encChar_content c (not_space_ne_nl hc) h1 h2]
      exact qv_step_content f b fi sp ln c cs n hc h1 h2

theorem qv_decode_aux (N : Nat) : ∀ (u b rest : Str) (n fuel : Nat),
    u.length ≤ N → canonAux u = true → (encCanon u).length < fuel →
    ∃ m, quoteValue fuel b false false false ⟨encCanon u ++ '"' :: rest, n⟩
      = (some (b ++ u), ⟨rest, m⟩) := by
  induction N with
  | zero =>
    intro u b rest n fuel hN hc hf
    have hu : u = [] := List.length_eq_zero.1 (Nat.le_zero.1 hN)
    subst hu
    refine ⟨n, ?_⟩
    rw [encCanon_nil, List.nil_append,
      qv_step_quote fuel b false false false rest n (by omega)]
    simp
  | succ N ih =>
    intro u b rest n fuel hN hc hf
    cases u with
    | nil =>
      refine ⟨n, ?_⟩
      rw [encCanon_nil, List.nil_append,
        qv_step_quote fuel b false false false rest n (by omega)]
      simp
    | cons c u2 =>
      by_cases hcs : isSpace c = true
      · obtain ⟨d, u3, rfl⟩ := canonAux_sep_shape c u2 hcs hc
        obtain ⟨hcd, hd, hc3⟩ := canonAux_sep c d u3 hcs hc
        have hc4 : canonAux u3 = true := by
          rw [canonAux_cons_content d u3 hd] at hc3; exact hc3
        have hlen : (encCanon (d :: u3)).length = (encChar d).length + (encCanon u3).length := by
          rw [encCanon_cons, List.length_append]
        have hdp := encChar_length_pos d
        rcases hcd with rfl | rfl
        · -- separator is a single space, encoded as one space
          rw [encCanon_cons, show encChar ' ' = [' '] by decide, encCanon_cons]
          obtain ⟨f, rfl⟩ : ∃ f, fuel = f + 2 := by
            refine ⟨fuel - 2, ?_⟩
            rw [encCanon_cons, show encChar ' ' = [' '] by decide, encCanon_cons] at hf
            simp [List.length_append] at hf
            omega
          rw [show (([' '] ++ (encChar d ++ encCanon u3)) ++ '"' :: rest)
              = ' ' :: (encChar d ++ (encCanon u3 ++ '"' :: rest)) by simp]
          rw [show f + 2 = (f + 1) + 1 by rfl,
            qv_step_space (f + 1) b false false ' ' _ n (by decide) (by decide) (by decide)]
          rw [if_neg (by simp), qv_step_enc f b false true false d _ n hd]
          have harith : (encCanon u3).length < f := by
            rw [encCanon_cons, show encChar ' ' = [' '] by decide, encCanon_cons] at hf
            simp [List.length_append] at hf
            omega
          obtain ⟨m, hm⟩ := ih u3 (qpush b true false d) rest n f
            (by simp at hN; omega) hc4 harith
          refine ⟨m, ?_⟩
          rw [hm]
          simp [qpush]
        · -- separator is a newline, encoded as newline plus two-tab indent
          rw [encCanon_cons, show encChar '\n' = ['\n', '\t', '\t'] by decide, encCanon_cons]
          obtain ⟨f, rfl⟩ : ∃ f, fuel = f + 4 := by
            refine ⟨fuel - 4, ?_⟩
            rw [encCanon_cons, show encChar '\n' = ['\n', '\t', '\t'] by decide,
              encCanon_cons] at hf
            simp [List.length_append] at hf
            omega
          rw [show ((['\n', '\t', '\t'] ++ (encChar d ++ encCanon u3)) ++ '"' :: rest)
              = '\n' :: '\t' :: '\t' :: (encChar d ++ (encCanon u3 ++ '"' :: rest)) by simp]
          rw [show f + 4 = ((f + 1) + 1 + 1) + 1 by rfl,
            qv_step_newline ((f + 1) + 1 + 1) b false false _ n]
          rw [qv_step_space ((f + 1) + 1) b false true '\t' _ (n + 1)
            (by decide) (by decide) (by decide)]
          rw [if_pos rfl]
          rw [qv_step_space (f + 1) b false true '\t' _ (n + 1)
            (by decide) (by decide) (by decide)]
          rw [if_pos rfl]
          rw [qv_step_enc f b false false true d _ (n + 1) hd]
          have harith : (encCanon u3).length < f := by
            rw [encCanon_cons, show encChar '\n' = ['\n', '\t', '\t'] by decide,
              encCanon_cons] at hf
            simp [List.length_append] at hf
            omega
          obtain ⟨m, hm⟩ := ih u3 (qpush b false true d) rest (n + 1) f
            (by simp at hN; omega) hc4 harith
          refine ⟨m, ?_⟩
          rw [hm]
          simp [qpush]
      · have hcs2 : isSpace c = false := Bool.eq_false_iff.2 hcs
        have hc2 : canonAux u2 = true := by
          rw [canonAux_cons_content c u2 hcs2] at hc; exact hc
        rw [encCanon_cons]
        obtain ⟨f, rfl⟩ : ∃ f, fuel = f + 1 := by
          refine ⟨fuel - 1, ?_⟩
          have := encChar_length_pos c
          omega
        rw [show ((encChar c ++ encCanon u2) ++ '"' :: rest)
            = encChar c ++ (encCanon u2 ++ '"' :: rest) by simp]
        rw [qv_step_enc f b false false false c _ n hcs2]
        have harith : (encCanon u2).length < f := by
          rw [encCanon_cons, List.length_append] at hf
          have := encChar_length_pos c
          omega
        obtain ⟨m, hm⟩ := ih u2 (qpush b false false c) rest n f
          (by simp at hN; omega) hc2 harith
        refine ⟨m, ?_⟩
        rw [hm]
        simp [qpush]

theorem qv_decode (u rest : Str) (n fuel : Nat) (hu : canonVal u = true)
    (hf : (encCanon u).length < fuel) :
    ∃ m, quoteValue fuel [] true false false ⟨encCanon u ++ '"' :: rest, n⟩
      = (some u, ⟨rest, m⟩) := by
  cases u with
  | nil => exact absurd hu (by decide)
  | cons c u2 =>
    have hcs : isSpace c = false := by
      unfold canonVal at hu
      simp only [Bool.and_eq_true, Bool.not_eq_true'] at hu
      exact hu.1
    have hca : canonAux (c :: u2) = true := by
      unfold canonVal at hu
      simp only [Bool.and_eq_true, Bool.not_eq_true'] at hu
      exact hu.2
    have hc2 : canonAux u2 = true := by
      rw [canonAux_cons_content c u2 hcs] at hca; exact hca
    rw [encCanon_cons]
    obtain ⟨f, rfl⟩ : ∃ f, fuel = f + 1 := by
      refine ⟨fuel - 1, ?_⟩
      have := encChar_length_pos c
      omega
    rw [show ((encChar c ++ encCanon u2) ++ '"' :: rest)
        = encChar c ++ (encCanon u2 ++ '"' :: rest) by simp]
    rw [qv_step_enc f [] true false false c _ n hcs]
    have harith : (encCanon u2).length < f := by
      rw [encCanon_cons, List.length_append] at hf
      have := encChar_length_pos c
      omega
    obtain ⟨m, hm⟩ := qv_decode_aux u2.length u2 (qpush [] false false c) rest n f
      (le_refl _) hc2 harith
    refine ⟨m, ?_⟩
    rw [hm]
    simp [qpush]

theorem wq_newline (sp ln : Bool) (u : Str) :
    wq false sp ln ('\n' :: u) = wq false false true u := by
  rw [wq]
  simp

theorem wq_space (sp ln : Bool) (c : Char) (u : Str) (hc : isSpace c = true)
    (h1 : c ≠ '\n') :
    wq false sp ln (c :: u) = wq false (if ln then sp else true) ln u := by
  rw [wq]
  simp [h1, hc]

theorem wq_content (fi sp ln : Bool) (c : Char) (u : Str) (hc : isSpace c = false) :
    wq fi sp ln (c :: u)
      = (if ln then ['\n', '\t', '\t'] else if sp then [' '] else []) ++ encChar c
        ++ wq false false false u := by
  rw [wq]
  simp [not_space_ne_nl hc, hc, encChar]

theorem wq_run (N : Nat) : ∀ u : Str, u.length ≤ N → canonAux u = true →
    wq false false false u = encCanon u := by
  induction N with
  | zero =>
    intro u hN hc
    have hu : u = [] := List.length_eq_zero.1 (Nat.le_zero.1 hN)
    subst hu
    rfl
  | succ N ih =>
    intro u hN hc
    cases u with
    | nil => rfl
    | cons c u2 =>
      by_cases hcs : isSpace c = true
      · obtain ⟨d, u3, rfl⟩ := canonAux_sep_shape c u2 hcs hc
        obtain ⟨hcd, hd, hc3⟩ := canonAux_sep c d u3 hcs hc
        have hc4 : canonAux u3 = true := by
          rw [canonAux_cons_content d u3 hd] at hc3; exact hc3
        rcases hcd with rfl | rfl
        · rw [wq_space false false ' ' _ (by decide) (by decide), if_neg (by simp),
            wq_content false true false d u3 hd, if_neg (by simp), if_pos rfl,
            ih u3 (by simp at hN; omega) hc4,
            encCanon_cons, show encChar ' ' = [' '] by decide, encCanon_cons]
          simp
        · rw [wq_newline false false (d :: u3),
            wq_content false false true d u3 hd, if_pos rfl,
            ih u3 (by simp at hN; omega) hc4,
            encCanon_cons, show encChar '\n' = ['\n', '\t', '\t'] by decide, encCanon_cons]
          simp
      · have hcs2 : isSpace c = false := Bool.eq_false_iff.2 hcs
        have hc2 : canonAux u2 = true := by
          rw [canonAux_cons_content c u2 hcs2] at hc; exact hc
        rw [wq_content false false false c u2 hcs2, if_neg (by simp), if_neg (by simp),
          ih u2 (by simp at hN; omega) hc2, encCanon_cons]
        simp

theorem wq_canon (v : Str) (hv : canonVal v = true) :
    wq true false false v = encCanon v := by
  cases v with
  | nil => exact absurd hv (by decide)
  | cons c u2 =>
    have hcs : isSpace c = false := by
      unfold canonVal at hv
      simp only [Bool.and_eq_true, Bool.not_eq_true'] at hv
      exact hv.1
    have hca : canonAux (c :: u2) = true := by
      unfold canonVal at hv
      simp only [Bool.and_eq_true, Bool.not_eq_true'] at hv
      exact hv.2
    have hc2 : canonAux u2 = true := by
      rw [canonAux_cons_content c u2 hcs] at hca; exact hca
    rw [wq_content true false false c u2 hcs, if_neg (by simp), if_neg (by simp),
      wq_run u2.length u2 (le_refl _) hc2, encCanon_cons]
    simp

theorem writeQuoted_canon (k v : Str) (hv : canonVal v = true) :
    writeQuoted k v
      = '\t' :: (k ++ (if k.length < 6 then [':', '\t'] else [':', ' '])
          ++ '"' :: (encCanon v ++ '"' :: ['\n'])) := by
  unfold writeQuoted
  rw [wq_canon v hv]
  by_cases h : k.length < 6 <;> simp [h]

/-! ## Predicate unpacking and the header lemma -/

theorem not_isEmpty_ne (l : List (Str × Str)) (h : l.isEmpty = false) : l ≠ [] := by
  cases l with
  | nil => exact absurd h (by decide)
  | cons a l2 => simp

theorem trimLeft_head : ∀ l : Str, trimLeft l = [] ∨
    ∃ c cs, trimLeft l = c :: cs ∧ isSpace c = false := by
  intro l
  induction l with
  | nil => left; rfl
  | cons c cs ih =>
    by_cases hc : isSpace c = true
    · rw [trimLeft, if_pos (by simp [hc])]
      exact ih
    · right
      refine ⟨c, cs, ?_, Bool.eq_false_iff.2 hc⟩
      rw [trimLeft, if_neg (by simp [Bool.eq_false_iff.2 hc])]

theorem trim_fix_head (v : Str) (c : Char) (v2 : Str) (hv : trimSpace v = v)
    (he : v = c :: v2) : isSpace c = false := by
  rcases trimLeft_head (trimRight v) with h | ⟨d, ds, hd, hds⟩
  · rw [← trimSpace] at h
    rw [hv, he] at h
    exact absurd h (by simp)
  · have : trimSpace v = d :: ds := hd
    rw [hv, he] at this
    rw [List.cons_eq_cons] at this
    rw [this.1]
    exact hds

theorem fieldValOK_spec (v : Str) (h : fieldValOK v = true) :
    trimSpace v = v ∧ v ≠ [] ∧
    ('\n' ∈ v → canonVal v = true) ∧
    ('\n' ∉ v → ∀ c v2, v = c :: v2 → c ≠ '"') := by
  unfold fieldValOK at h
  simp only [Bool.and_eq_true, beq_iff_eq, Bool.not_eq_true'] at h
  obtain ⟨⟨htr, hne⟩, hrest⟩ := h
  have hvne : v ≠ [] := by
    cases v with
    | nil => exact absurd hne (by decide)
    | cons c v2 => simp
  refine ⟨htr, hvne, ?_, ?_⟩
  · intro hnl
    rw [if_pos hnl] at hrest
    exact hrest
  · intro hnl c v2 he
    rw [if_neg hnl] at hrest
    subst he
    simp only [bne_iff_ne] at hrest
    exact hrest

theorem typOK_spec (t : Str) (h : typOK t = true) :
    t ≠ [] ∧ (∀ c ∈ t, isSpace c = false ∧ c ≠ '=') ∧ normKey t = t := by
  unfold typOK at h
  simp only [Bool.and_eq_true, List.all_eq_true, Bool.not_eq_true', bne_iff_ne,
    beq_iff_eq] at h
  obtain ⟨⟨hne, hall⟩, hnorm⟩ := h
  have htne : t ≠ [] := by
    cases t with
    | nil => exact absurd hne (by decide)
    | cons c t2 => simp
  exact ⟨htne, fun c hc => ⟨(hall c hc).1, (hall c hc).2⟩, hnorm⟩

theorem idOK_spec (i : Str) (h : idOK i = true) :
    i ≠ [] ∧ normID i = i ∧ '\n' ∉ i ∧
    (∀ c i2, i = c :: i2 → isSpace c = false) ∧
    (∀ c, i.getLast? = some c → isSpace c = false) := by
  unfold idOK at h
  simp only [Bool.and_eq_true, List.all_eq_true, Bool.not_eq_true', Bool.or_eq_true,
    beq_iff_eq] at h
  obtain ⟨⟨⟨⟨hne, hnorm⟩, hall⟩, hhead⟩, hlast⟩ := h
  have hine : i ≠ [] := by
    cases i with
    | nil => exact absurd hne (by decide)
    | cons c i2 => simp
  refine ⟨hine, hnorm, ?_, ?_, ?_⟩
  · intro hmem
    rcases hall '\n' hmem with h1 | h1
    · exact absurd h1 (by decide)
    · exact absurd h1 (by decide)
  · intro c i2 he
    subst he
    simp only [List.head?_cons] at hhead
    simpa using hhead
  · intro c hc
    rw [hc] at hlast
    simpa using hlast

theorem recordOK_spec (r : Record) (h : recordOK r = true) :
    typOK r.typ = true ∧ idOK r.id = true ∧ r.data ≠ [] ∧
    (∀ kv ∈ r.data, fieldKeyOK kv.1 = true ∧ fieldValOK kv.2 = true) ∧
    keysSorted r.data = true := by
  unfold recordOK at h
  simp only [Bool.and_eq_true, List.all_eq_true, Bool.not_eq_true'] at h
  obtain ⟨⟨⟨⟨ht, hi⟩, hdne⟩, hall⟩, hs⟩ := h
  refine ⟨ht, hi, not_isEmpty_ne r.data hdne, ?_, hs⟩
  intro kv hkv
  have := hall kv hkv
  exact ⟨this.1, this.2⟩

theorem parseHeader_good (fuel : Nat) (typ id rest : Str) (n : Nat)
    (hf : 0 < fuel) (ht : typOK typ = true) (hi : idOK id = true) :
    parseHeader fuel ⟨'@' :: (typ ++ '=' :: id) ++ '\n' :: rest, n⟩
      = (some ⟨id, typ, []⟩, ⟨rest, n + 1⟩) := by
  obtain ⟨f, rfl⟩ : ∃ f, fuel = f + 1 := ⟨fuel - 1, by omega⟩
  obtain ⟨htne, hta, htn⟩ := typOK_spec typ ht
  obtain ⟨hine, hin, hinl, hih, hil⟩ := idOK_spec id hi
  have hnl : '\n' ∉ '@' :: (typ ++ '=' :: id) := by
    intro hmem
    rcases List.mem_cons.1 hmem with he | hmem
    · exact absurd he (by decide)
    rcases List.mem_append.1 hmem with hmem | hmem
    · exact absurd (hta '\n' hmem).1 (by decide)
    rcases List.mem_cons.1 hmem with he | hmem
    · exact absurd he (by decide)
    · exact hinl hmem
  have hline := readLine_append ('@' :: (typ ++ '=' :: id)) rest hnl
  have hglast : ('@' :: (typ ++ '=' :: id)).getLast? = id.getLast? := by
    rw [show '@' :: (typ ++ '=' :: id) = ('@' :: typ ++ ['=']) ++ id by simp]
    exact List.getLast?_append_of_ne_nil _ hine
  obtain ⟨lc, hlc⟩ : ∃ lc, id.getLast? = some lc := by
    cases hg : id.getLast? with
    | none => exact absurd (List.getLast?_eq_none_iff.1 hg) hine
    | some lc => exact ⟨lc, rfl⟩
  have htrim : trimSpace (('@' :: (typ ++ '=' :: id)) ++ ['\n'])
      = '@' :: (typ ++ '=' :: id) := by
    rw [trimSpace_append_nl]
    exact trimSpace_keep '@' (typ ++ '=' :: id) lc (by decide)
      (by rw [hglast]; exact hlc) (hil lc hlc)
  have hidx : idxOf '=' (typ ++ '=' :: id) = some typ.length :=
    idxOf_append '=' typ id (fun hmem => (hta '=' hmem).2 rfl)
  have htake : (typ ++ '=' :: id).take typ.length = typ := List.take_left typ _
  have hdrop : (typ ++ '=' :: id).drop (typ.length + 1) = id := by
    rw [show typ ++ '=' :: id = (typ ++ ['=']) ++ id by simp,
      show typ.length + 1 = (typ ++ ['=']).length by simp]
    exact List.drop_left _ _
  have hnew : NewRecord typ id = some ⟨id, typ, []⟩ := by
    unfold NewRecord
    rw [htn, if_neg htne, hin, if_neg hine]
  have hlen1 : ¬ typ.length < 1 := by
    cases typ with
    | nil => exact absurd rfl htne
    | cons c t2 => simp
  rw [parseHeader]
  simp only [List.cons_append, List.append_assoc] at hline htrim
  simp [hline, htrim, hidx, htake, hdrop, hnew, hlen1,
    show ('@' : Char) ≠ '#' by decide]

/-! ## Writer shape lemmas -/

theorem writeField_single (k v : Str) (h : '\n' ∉ v) :
    writeField k v
      = '\t' :: (k ++ ':' :: (if k.length < 6 then '\t' else ' ') :: (v ++ ['\n'])) := by
  unfold writeField
  rw [if_neg h]
  by_cases h6 : k.length < 6 <;> simp [h6]

theorem writeField_multi (k v : Str) (h : '\n' ∈ v) (hv : canonVal v = true) :
    writeField k v
      = '\t' :: (k ++ ':' :: (if k.length < 6 then '\t' else ' ') :: '"'
          :: (encCanon v ++ '"' :: ['\n'])) := by
  unfold writeField
  rw [if_pos h, writeQuoted_canon k v hv]
  by_cases h6 : k.length < 6 <;> simp [h6]

theorem write_fields_map (data : List (Str × Str))
    (hs : keysSorted data = true)
    (hk : ∀ kv ∈ data, normKey kv.1 = kv.1 ∧ kv.2 ≠ []) :
    (data.map Prod.fst).map (fun key =>
        if mapLookup (normKey key) data = [] then []
        else writeField key (mapLookup (normKey key) data))
      = data.map (fun kv => writeField kv.1 kv.2) := by
  rw [List.map_map]
  apply List.map_congr_left
  intro kv hkv
  obtain ⟨hn, hv⟩ := hk kv hkv
  have hl : mapLookup (normKey kv.1) data = kv.2 := by
    rw [hn]
    exact mapLookup_self kv.1 kv.2 data hs (by simpa using hkv)
  simp [Function.comp, hl, hv]

theorem Write_unfold (r : Record) (h : recordOK r = true) :
    Writer.Write r = '@' :: (r.typ ++ '=' :: r.id) ++ '\n'
      :: (r.data.map (fun kv => writeField kv.1 kv.2)).flatten := by
  obtain ⟨ht, hi, hdne, hall, hs⟩ := recordOK_spec r h
  obtain ⟨htne, _, _⟩ := typOK_spec _ ht
  obtain ⟨hine, _, _, _, _⟩ := idOK_spec _ hi
  have hkeys : r.Keys = r.data.map Prod.fst := by
    unfold Record.Keys
    rw [if_neg hdne, sortStrs_sorted_id r.data hs]
  have hkne : r.Keys ≠ [] := by
    rw [hkeys]
    intro he
    exact hdne (List.map_eq_nil_iff.1 he)
  unfold Writer.Write
  rw [hkeys, if_neg (by rw [← hkeys]; exact hkne)]
  rw [if_neg (by rintro (h1 | h1); exacts [hine h1, htne h1])]
  simp only [Record.Get]
  rw [write_fields_map r.data hs (fun kv hkv =>
    ⟨(fieldKeyOK_spec kv.1 (hall kv hkv).1).2.2.2,
     (fieldValOK_spec kv.2 (hall kv hkv).2).2.1⟩)]
  simp

/-! ## Folding Set over sorted fields -/

theorem keysSorted_mid : ∀ (l1 : List (Str × Str)) (p : Str × Str)
    (l2 : List (Str × Str)),
    keysSorted (l1 ++ p :: l2) = true → ∀ q ∈ l1, strLt q.1 p.1 = true := by
  intro l1
  induction l1 with
  | nil => intro p l2 h q hq; exact absurd hq (by simp)
  | cons a l1 ih =>
    intro p l2 h q hq
    rw [List.cons_append] at h
    obtain ⟨htail, hall⟩ := keysSorted_cons a _ h
    rcases List.mem_cons.1 hq with rfl | hq
    · exact hall p (by simp)
    · exact ih p l2 htail q hq

theorem foldl_set_append : ∀ (todo done : List (Str × Str)) (id0 typ0 : Str),
    keysSorted (done ++ todo) = true →
    (∀ kv ∈ todo, normKey kv.1 = kv.1 ∧ kv.1 ≠ [] ∧ trimSpace kv.2 = kv.2 ∧ kv.2 ≠ []) →
    todo.foldl (fun (r : Record) kv => r.Set kv.1 kv.2) (⟨id0, typ0, done⟩ : Record)
      = (⟨id0, typ0, done ++ todo⟩ : Record) := by
  intro todo
  induction todo with
  | nil => intro done id0 typ0 hs hall; simp
  | cons kv todo2 ih =>
    intro done id0 typ0 hs hall
    obtain ⟨k, v⟩ := kv
    obtain ⟨hn, hkne, htr, hvne⟩ := hall (k, v) (by simp)
    rw [List.foldl_cons]
    have hset : Record.Set ⟨id0, typ0, done⟩ k v = ⟨id0, typ0, done ++ [(k, v)]⟩ := by
      simp only [Record.Set]
      rw [hn, htr, if_neg hkne, if_neg hvne]
      rw [mapInsert_append k v done (fun p hp => keysSorted_mid done (k, v) todo2 hs p hp)]
    rw [hset]
    rw [ih (done ++ [(k, v)]) id0 typ0
      (by rw [List.append_assoc, List.singleton_append]; exact hs)
      (fun kv2 hkv2 => hall kv2 (by simp [hkv2]))]
    simp

/-! ## Running the data loop over written fields -/

theorem parseKey_field_pre (pre : Str) (hpre : pre = [] ∨ pre = ['\n'])
    (k rest : Str) (n : Nat) (hk : fieldKeyOK k = true) :
    parseKey ((pre ++ '\t' :: (k ++ ':' :: rest)).length + 1)
        ⟨pre ++ '\t' :: (k ++ ':' :: rest), n⟩
      = (some (k, ':'), ⟨rest, n + pre.length⟩) := by
  rcases hpre with rfl | rfl
  · simp only [List.nil_append, List.length_nil, Nat.add_zero]
    exact parseKey_field _ k rest n (by simp) hk
  · have hlen : ((['\n'] : Str) ++ '\t' :: (k ++ ':' :: rest)).length + 1
        = ((('\t' :: (k ++ ':' :: rest)) : Str).length + 1) + 1 := by simp
    rw [hlen, show ((['\n'] : Str) ++ '\t' :: (k ++ ':' :: rest))
        = '\n' :: '\t' :: (k ++ ':' :: rest) by simp]
    rw [parseKey_newline]
    rw [parseKey_field _ k rest (n + 1) (by simp) hk]
    simp

theorem sep_facts (k : Str) : isSpace (if k.length < 6 then '\t' else ' ') = true ∧
    (if k.length < 6 then '\t' else ' ') ≠ '\n' ∧
    (if k.length < 6 then '\t' else ' ') ≠ '\r' := by
  by_cases h6 : k.length < 6
  · rw [if_pos h6]
    exact ⟨by decide, by decide, by decide⟩
  · rw [if_neg h6]
    exact ⟨by decide, by decide, by decide⟩

theorem parseFields_step_single (f : Nat) (rec : Record) (pre k v tail : Str) (n : Nat)
    (hpre : pre = [] ∨ pre = ['\n'])
    (hk : fieldKeyOK k = true) (hv : fieldValOK v = true) (hnl : '\n' ∉ v) :
    parseFields (f + 1) rec ⟨pre ++ (writeField k v ++ tail), n⟩
      = parseFields f (rec.Set k v) ⟨tail, n + pre.length⟩ := by
  obtain ⟨htr, hvne, _, hsingle⟩ := fieldValOK_spec v hv
  obtain ⟨c, v2, rfl⟩ := List.exists_cons_of_ne_nil hvne
  have hc : isSpace c = false := trim_fix_head _ c v2 htr rfl
  have hq : c ≠ '"' := hsingle hnl c v2 rfl
  obtain ⟨hsep1, hsep2, hsep3⟩ := sep_facts k
  rw [writeField_single k _ hnl]
  rw [show ('\t' :: (k ++ ':' :: (if k.length < 6 then '\t' else ' ')
        :: ((c :: v2) ++ ['\n'])) ++ tail)
      = '\t' :: (k ++ ':' :: ((if k.length < 6 then '\t' else ' ')
        :: ((c :: v2) ++ '\n' :: tail))) by simp]
  rw [parseFields]
  have hpk := parseKey_field_pre pre hpre k
    ((if k.length < 6 then '\t' else ' ') :: ((c :: v2) ++ '\n' :: tail)) n hk
  simp only [hpk]
  have hpv := parseValue_single
    ((((if k.length < 6 then '\t' else ' ') :: ((c :: v2) ++ '\n' :: tail)).length + 1))
    (if k.length < 6 then '\t' else ' ') c v2 tail (n + pre.length)
    (by simp only [List.length_cons]; omega) hsep1 hsep2 hsep3 hc hq hnl
  simp [show (':' : Char) ≠ '@' by decide, show (':' : Char) ≠ '\n' by decide]
  simp at hpv
  simp [hpv]
  rw [set_trim_congr rec k (c :: (v2 ++ ['\n'])) (c :: v2)
    (by rw [show (c :: (v2 ++ ['\n']) : Str) = (c :: v2) ++ ['\n'] by simp]
        exact trimSpace_append_nl (c :: v2))]

theorem parseFields_step_multi (f : Nat) (rec : Record) (pre k v tail : Str) (n : Nat)
    (hpre : pre = [] ∨ pre = ['\n'])
    (hk : fieldKeyOK k = true) (hv : fieldValOK v = true) (hnl : '\n' ∈ v) :
    ∃ m, parseFields (f + 1) rec ⟨pre ++ (writeField k v ++ tail), n⟩
      = parseFields f (rec.Set k v) ⟨'\n' :: tail, m⟩ := by
  obtain ⟨htr, hvne, hcanon, _⟩ := fieldValOK_spec v hv
  have hcv := hcanon hnl
  obtain ⟨hsep1, hsep2, hsep3⟩ := sep_facts k
  rw [writeField_multi k v hnl hcv]
  rw [show ('\t' :: (k ++ ':' :: (if k.length < 6 then '\t' else ' ') :: '"'
        :: (encCanon v ++ '"' :: ['\n'])) ++ tail)
      = '\t' :: (k ++ ':' :: ((if k.length < 6 then '\t' else ' ')
        :: '"' :: (encCanon v ++ '"' :: '\n' :: tail))) by simp]
  rw [parseFields]
  have hpk := parseKey_field_pre pre hpre k
    ((if k.length < 6 then '\t' else ' ') :: '"' :: (encCanon v ++ '"' :: '\n' :: tail)) n hk
  simp only [hpk]
  have hpv := parseValue_quoted
    (((if k.length < 6 then '\t' else ' ') :: '"' :: (encCanon v ++ '"' :: '\n' :: tail)).length + 1)
    (if k.length < 6 then '\t' else ' ') (encCanon v ++ '"' :: '\n' :: tail) (n + pre.length)
    (by simp only [List.length_cons]; omega) hsep1 hsep2 hsep3
  obtain ⟨m1, hqd⟩ := qv_decode v ('\n' :: tail) (n + pre.length)
    ((encCanon v ++ '"' :: '\n' :: tail).length + 1) hcv
    (by simp only [List.length_append, List.length_cons]; omega)
  refine ⟨m1, ?_⟩
  simp [show (':' : Char) ≠ '@' by decide, show (':' : Char) ≠ '\n' by decide]
  simp at hpv hqd
  simp [hpv, hqd]

theorem parseFields_done (pre : Str) (hpre : pre = [] ∨ pre = ['\n'])
    (rec : Record) (n fuel : Nat) (hf : pre.length < fuel) :
    ∃ m, parseFields fuel rec ⟨pre, n⟩ = (rec, ⟨[], m⟩) := by
  rcases hpre with rfl | rfl
  · cases fuel with
    | zero => exact ⟨n, rfl⟩
    | succ f =>
      refine ⟨n, ?_⟩
      rw [parseFields]
      simp [parseKey_eof]
  · obtain ⟨f, rfl⟩ : ∃ f, fuel = f + 1 := ⟨fuel - 1, by omega⟩
    refine ⟨n + 1, ?_⟩
    rw [parseFields]
    have h1 : parseKey ((['\n'] : Str).length + 1) ⟨['\n'], n⟩ = (none, ⟨[], n + 1⟩) := by
      rw [show ((['\n'] : Str).length + 1) = 1 + 1 by rfl, parseKey_newline, parseKey_eof]
    simp at h1
    simp [h1]

theorem writeField_length (k v : Str) : 2 ≤ (writeField k v).length := by
  unfold writeField
  by_cases hnl : '\n' ∈ v
  · rw [if_pos hnl]
    unfold writeQuoted
    by_cases h6 : k.length < 6 <;> simp [h6] <;> omega
  · rw [if_neg hnl]
    by_cases h6 : k.length < 6 <;> simp [h6] <;> omega

theorem parseFields_run (N : Nat) : ∀ (todo : List (Str × Str)) (pre : Str)
    (rec : Record) (n fuel : Nat),
    (pre = [] ∨ pre = ['\n']) →
    (∀ kv ∈ todo, fieldKeyOK kv.1 = true ∧ fieldValOK kv.2 = true) →
    todo.length ≤ N →
    (pre ++ (todo.map (fun kv => writeField kv.1 kv.2)).flatten).length < fuel →
    ∃ m, parseFields fuel rec ⟨pre ++ (todo.map (fun kv => writeField kv.1 kv.2)).flatten, n⟩
      = (todo.foldl (fun (r : Record) kv => r.Set kv.1 kv.2) rec, ⟨[], m⟩) := by
  induction N with
  | zero =>
    intro todo pre rec n fuel hpre hall hN hf
    have ht : todo = [] := List.length_eq_zero.1 (Nat.le_zero.1 hN)
    subst ht
    simp only [List.map_nil, List.flatten_nil, List.append_nil, List.foldl_nil] at hf ⊢
    exact parseFields_done pre hpre rec n fuel hf
  | succ N ih =>
    intro todo pre rec n fuel hpre hall hN hf
    cases todo with
    | nil =>
      simp only [List.map_nil, List.flatten_nil, List.append_nil, List.foldl_nil] at hf ⊢
      exact parseFields_done pre hpre rec n fuel hf
    | cons kv todo2 =>
      obtain ⟨k, v⟩ := kv
      obtain ⟨hk, hv⟩ := hall (k, v) (by simp)
      have hall2 : ∀ kv2 ∈ todo2, fieldKeyOK kv2.1 = true ∧ fieldValOK kv2.2 = true :=
        fun kv2 h2 => hall kv2 (by simp [h2])
      have hwfl := writeField_length k v
      have hprelen : pre.length ≤ 1 := by rcases hpre with rfl | rfl <;> simp
      rw [List.map_cons, List.flatten_cons] at hf ⊢
      obtain ⟨f, rfl⟩ : ∃ f, fuel = f + 1 := ⟨fuel - 1, by omega⟩
      have hflen : (pre ++ (writeField k v
          ++ (todo2.map (fun kv2 => writeField kv2.1 kv2.2)).flatten)).length
          = pre.length + (writeField k v).length
            + ((todo2.map (fun kv2 => writeField kv2.1 kv2.2)).flatten).length := by
        simp only [List.length_append]
        omega
      by_cases hnl : '\n' ∈ v
      · obtain ⟨m1, hstep⟩ := parseFields_step_multi f rec pre k v
          ((todo2.map (fun kv2 => writeField kv2.1 kv2.2)).flatten) n hpre hk hv hnl
        rw [hstep]
        obtain ⟨m, hm⟩ := ih todo2 ['\n'] (rec.Set k v) m1 f (Or.inr rfl) hall2
          (by simp at hN; omega)
          (by rw [hflen] at hf
              simp only [List.length_append, List.length_cons, List.length_nil]
              omega)
        refine ⟨m, ?_⟩
        rw [show ('\n' :: (todo2.map (fun kv2 => writeField kv2.1 kv2.2)).flatten : Str)
            = ['\n'] ++ (todo2.map (fun kv2 => writeField kv2.1 kv2.2)).flatten by simp]
        rw [hm]
        simp
      · have hstep := parseFields_step_single f rec pre k v
          ((todo2.map (fun kv2 => writeField kv2.1 kv2.2)).flatten) n hpre hk hv hnl
        rw [hstep]
        obtain ⟨m, hm⟩ := ih todo2 [] (rec.Set k v) (n + pre.length) f (Or.inl rfl) hall2
          (by simp at hN; omega)
          (by rw [hflen] at hf
              simp only [List.nil_append]
              omega)
        refine ⟨m, ?_⟩
        rw [show ((todo2.map (fun kv2 => writeField kv2.1 kv2.2)).flatten : Str)
            = [] ++ (todo2.map (fun kv2 => writeField kv2.1 kv2.2)).flatten by simp]
        rw [hm]
        simp

theorem roundtrip_scanOne (r : Record) (h : recordOK r = true) :
    scanOne (Writer.Write r) = some r := by
  obtain ⟨ht, hi, hdne, hall, hs⟩ := recordOK_spec r h
  have hw := Write_unfold r h
  obtain ⟨m, hpf⟩ := parseFields_run r.data.length r.data [] ⟨r.id, r.typ, []⟩ 1
    ((r.data.map (fun kv => writeField kv.1 kv.2)).flatten.length + 1) (Or.inl rfl)
    (fun kv hkv => ⟨(hall kv hkv).1, (hall kv hkv).2⟩) (le_refl _)
    (by simp)
  rw [List.nil_append] at hpf
  have hfold := foldl_set_append r.data [] r.id r.typ (by simpa using hs)
    (fun kv hkv => ⟨(fieldKeyOK_spec _ (hall kv hkv).1).2.2.2,
      (fieldKeyOK_spec _ (hall kv hkv).1).1,
      (fieldValOK_spec _ (hall kv hkv).2).1,
      (fieldValOK_spec _ (hall kv hkv).2).2.1⟩)
  have hph := parseHeader_good
    (('@' :: (r.typ ++ '=' :: r.id)
      ++ '\n' :: (r.data.map (fun kv => writeField kv.1 kv.2)).flatten).length + 1)
    r.typ r.id ((r.data.map (fun kv => writeField kv.1 kv.2)).flatten) 0
    (Nat.succ_pos _) ht hi
  have hpr : parseRecord ⟨'@' :: (r.typ ++ '=' :: r.id)
      ++ '\n' :: (r.data.map (fun kv => writeField kv.1 kv.2)).flatten, 0⟩
      = (some r, ⟨[], m⟩) := by
    rw [parseRecord]
    simp only [hph]
    simp only [hpf, hfold]
    simp
  have hsc : Scanner.Scan (NewScanner ('@' :: (r.typ ++ '=' :: r.id)
      ++ '\n' :: (r.data.map (fun kv => writeField kv.1 kv.2)).flatten))
      = (true, ⟨false, none, ⟨[], m⟩, some r⟩) := by
    unfold Scanner.Scan NewScanner
    rw [if_neg (by simp)]
    rw [scanLoop]
    simp only [hpr]
    simp [hdne]
  rw [hw]
  unfold scanOne
  rw [hsc]
  simp

/-! ## Word and well-formedness helpers -/

theorem wordNE_spec (w : Str) (h : wordNE w = true) :
    w ≠ [] ∧ ∀ c ∈ w, isSpace c = false ∧ c ≠ '"' ∧ c ≠ '\\' := by
  unfold wordNE at h
  simp only [Bool.and_eq_true, List.all_eq_true, Bool.not_eq_true', bne_iff_ne] at h
  obtain ⟨hne, hall⟩ := h
  refine ⟨?_, fun c hc => ⟨(hall c hc).1.1, (hall c hc).1.2, (hall c hc).2⟩⟩
  cases w with
  | nil => exact absurd hne (by decide)
  | cons c w2 => simp

theorem word_trim (w : Str) (h : ∀ c ∈ w, isSpace c = false) : trimSpace w = w := by
  have hr : trimRight w = w := by
    have h2 := trimRight_append w [] h
    rw [List.append_nil, show trimRight ([] : Str) = [] from rfl, List.append_nil] at h2
    exact h2
  unfold trimSpace
  rw [hr]
  cases w with
  | nil => rfl
  | cons c w2 => exact trimLeft_cons c w2 (h c (by simp))

theorem canonAux_word : ∀ w : Str, (∀ c ∈ w, isSpace c = false) → canonAux w = true := by
  intro w
  induction w with
  | nil => intro h; rfl
  | cons c w2 ih =>
    intro h
    rw [canonAux_cons_content c w2 (h c (by simp))]
    exact ih (fun d hd => h d (by simp [hd]))

theorem canon_two_words (w1 w2 : Str) (h1 : ∀ c ∈ w1, isSpace c = false)
    (h2 : ∀ c ∈ w2, isSpace c = false) (hn1 : w1 ≠ []) (hn2 : w2 ≠ []) :
    canonVal (w1 ++ '\n' :: w2) = true := by
  obtain ⟨c, w12, rfl⟩ := List.exists_cons_of_ne_nil hn1
  obtain ⟨d, w22, rfl⟩ := List.exists_cons_of_ne_nil hn2
  have hc := h1 c (by simp)
  unfold canonVal
  rw [List.cons_append]
  show (!isSpace c && canonAux (c :: (w12 ++ '\n' :: d :: w22))) = true
  rw [hc]
  simp only [Bool.not_false, Bool.true_and]
  have haux : ∀ u : Str, (∀ c ∈ u, isSpace c = false) →
      canonAux (u ++ '\n' :: d :: w22) = true := by
    intro u
    induction u with
    | nil =>
      intro _
      rw [List.nil_append, canonAux, if_pos (by decide)]
      simp [h2 d (by simp), canonAux_word (d :: w22) h2]
    | cons e u2 ih =>
      intro hu
      rw [List.cons_append, canonAux_cons_content e _ (hu e (by simp))]
      exact ih (fun x hx => hu x (by simp [hx]))
  have := haux (c :: w12) h1
  rw [List.cons_append] at this
  exact this

theorem encCanon_append (a b : Str) : encCanon (a ++ b) = encCanon a ++ encCanon b := by
  simp [encCanon]

theorem encCanon_word (w : Str) (h : ∀ c ∈ w, isSpace c = false ∧ c ≠ '"' ∧ c ≠ '\\') :
    encCanon w = w := by
  induction w with
  | nil => rfl
  | cons c w2 ih =>
    obtain ⟨hs, hq, hb⟩ := h c (by simp)
    rw [encCanon_cons, encChar_content c (not_space_ne_nl hs) hq hb,
      ih (fun d hd => h d (by simp [hd]))]
    rfl

theorem qv_word_eof : ∀ (fuel : Nat) (w b : Str) (fi : Bool) (n : Nat),
    (∀ c ∈ w, isSpace c = false ∧ c ≠ '"' ∧ c ≠ '\\') → w.length < fuel →
    b ++ w ≠ [] →
    quoteValue fuel b fi false false ⟨w, n⟩ = (some (b ++ w), ⟨[], n⟩) := by
  intro fuel
  induction fuel with
  | zero => intro w b fi n hw hf hb; omega
  | succ f ih =>
    intro w b fi n hw hf hb
    cases w with
    | nil =>
      rw [quoteValue]
      simp only [readRune]
      rw [if_neg (by simpa using hb)]
      simp
    | cons c w2 =>
      obtain ⟨hs, hq, hbs⟩ := hw c (by simp)
      rw [qv_step_content f b fi false false c w2 n hs hq hbs]
      have := ih w2 (qpush b false false c) false n
        (fun d hd => hw d (by simp [hd])) (by simp at hf ⊢; omega) (by simp [qpush])
      rw [this]
      simp [qpush]

theorem RecordWF_spec (r : Record) (h : RecordWF r = true) :
    keysSorted r.data = true ∧ ∀ kv ∈ r.data, kv.1 ≠ [] ∧ kv.2 ≠ [] := by
  unfold RecordWF at h
  simp only [Bool.and_eq_true, List.all_eq_true, Bool.not_eq_true'] at h
  obtain ⟨hs, hall⟩ := h
  refine ⟨hs, fun kv hkv => ?_⟩
  obtain ⟨h1, h2⟩ := hall kv hkv
  constructor
  · intro e
    rw [e] at h1
    exact absurd h1 (by decide)
  · intro e
    rw [e] at h2
    exact absurd h2 (by decide)

theorem RecordWF_mk (i t : Str) (d : List (Str × Str)) (hs : keysSorted d = true)
    (hall : ∀ kv ∈ d, kv.1 ≠ [] ∧ kv.2 ≠ []) : RecordWF ⟨i, t, d⟩ = true := by
  unfold RecordWF
  simp only [Bool.and_eq_true, List.all_eq_true, Bool.not_eq_true']
  refine ⟨hs, fun kv hkv => ?_⟩
  obtain ⟨h1, h2⟩ := hall kv hkv
  constructor
  · cases hk : kv.1 with
    | nil => exact absurd hk h1
    | cons c l => simp
  · cases hk : kv.2 with
    | nil => exact absurd hk h2
    | cons c l => simp

theorem get_erased (r : Record) (k : Str) (hs : keysSorted r.data = true) :
    Record.Get ⟨r.id, r.typ, mapErase (normKey k) r.data⟩ k = [] := by
  unfold Record.Get
  exact mapLookup_not_mem _ _ (mapErase_key_ne (normKey k) r.data hs)

theorem keys_not_mem (i t : Str) (d : List (Str × Str)) (x : Str)
    (h : ∀ p ∈ d, p.1 ≠ x) : x ∉ Record.Keys ⟨i, t, d⟩ := by
  unfold Record.Keys
  by_cases hd : d = []
  · rw [if_pos hd]; simp
  · rw [if_neg hd]
    intro hmem
    rw [sortStrs_mem] at hmem
    obtain ⟨p, hp, he⟩ := List.mem_map.1 hmem
    exact h p hp he

theorem scanLoop_false_pending : ∀ (fuel : Nat) (sc sc1 : Scanner),
    scanLoop fuel sc = (false, sc1) → sc1.pending = sc.pending := by
  intro fuel
  induction fuel with
  | zero => intro sc sc1 h; injection h with h1 h2; rw [← h2]
  | succ f ih =>
    intro sc sc1 h
    rw [scanLoop] at h
    cases hpr : parseRecord sc.state with
    | mk o st1 =>
      rw [hpr] at h
      cases o with
      | none =>
        simp only at h
        injection h with h1 h2
        rw [← h2]
      | some rec =>
        simp only at h
        by_cases hd : rec.data = []
        · rw [if_pos hd] at h
          simpa using ih _ _ h
        · rw [if_neg hd] at h
          injection h with h1 h2
          exact absurd h1.symm (by decide)

/-! ## Claims -/

/-- Claim C5: the public advance operation Scan only ever reports records
with at least one field; an assembled record with zero fields is discarded
by the scan loop, which continues with the next header. -/
theorem C5_zero_field_filtering :
    (∀ (fuel : Nat) (sc sc1 : Scanner), scanLoop fuel sc = (true, sc1) →
      ∃ rec, sc1.pending = some rec ∧ rec.data ≠ []) ∧
    (∀ sc sc1 : Scanner, Scanner.Scan sc = (true, sc1) →
      ∃ rec, sc1.pending = some rec ∧ rec.data ≠ []) := by
  have hloop : ∀ (fuel : Nat) (sc sc1 : Scanner), scanLoop fuel sc = (true, sc1) →
      ∃ rec, sc1.pending = some rec ∧ rec.data ≠ [] := by
    intro fuel
    induction fuel with
    | zero =>
      intro sc sc1 h
      injection h with h1 h2
      exact absurd h1.symm (by decide)
    | succ f ih =>
      intro sc sc1 h
      rw [scanLoop] at h
      cases hpr : parseRecord sc.state with
      | mk o st1 =>
        rw [hpr] at h
        cases o with
        | none =>
          simp only at h
          injection h with h1 h2
          exact absurd h1.symm (by decide)
        | some rec =>
          simp only at h
          by_cases hd : rec.data = []
          · rw [if_pos hd] at h
            exact ih _ _ h
          · rw [if_neg hd] at h
            injection h with h1 h2
            rw [← h2]
            exact ⟨rec, rfl, hd⟩
  refine ⟨hloop, ?_⟩
  intro sc sc1 h
  unfold Scanner.Scan at h
  by_cases hc : sc.closed = true
  · rw [if_pos hc] at h
    injection h with h1 h2
    exact absurd h1.symm (by decide)
  · rw [if_neg hc] at h
    exact hloop _ _ _ h

/-- Witness for C5 at a concrete one-record input. -/
theorem C5_zero_field_filtering_witness :
    ∃ rec, (Scanner.Scan (NewScanner ("@t=i\n\tk:\tv\n".toList))).2.pending = some rec ∧
      rec.data ≠ [] :=
  C5_zero_field_filtering.2 (NewScanner ("@t=i\n\tk:\tv\n".toList))
    ((Scanner.Scan (NewScanner ("@t=i\n\tk:\tv\n".toList))).2) (by decide)

/-- Claim C9 (counterexample): for the field k = v the writer emits the
line with a leading tab, not the bare line the claim states. -/
theorem C9_counterexample :
    writeField ['k'] ['v'] = ['\t', 'k', ':', '\t', 'v', '\n'] ∧
    (['\t', 'k', ':', '\t', 'v', '\n'] : Str) ≠ ['k', ':', '\t', 'v', '\n'] := by
  decide

/-- Claim C9 amended: a field whose value contains no newline is emitted as
the single unquoted line tab, key, colon, then a tab when the key is
shorter than 6 and a space otherwise, then the value and a newline. -/
theorem C9_single_line_amended (key value : Str) (h : '\n' ∉ value) :
    writeField key value
      = '\t' :: (key ++ ':' :: (if key.length < 6 then '\t' else ' ')
          :: (value ++ ['\n'])) :=
  writeField_single key value h

/-- Witness for the amended C9 at a short and a long key. -/
theorem C9_single_line_amended_witness :
    writeField ['k'] ['v'] = '\t' :: (['k'] ++ ':'
        :: (if (['k'] : Str).length < 6 then '\t' else ' ') :: (['v'] ++ ['\n'])) ∧
    writeField ['g', 'r', 'a', 'v', 'i', 't', 'y'] ['v']
      = '\t' :: (['g', 'r', 'a', 'v', 'i', 't', 'y'] ++ ':'
          :: (if (['g', 'r', 'a', 'v', 'i', 't', 'y'] : Str).length < 6 then '\t' else ' ')
          :: (['v'] ++ ['\n'])) :=
  ⟨C9_single_line_amended ['k'] ['v'] (by decide),
   C9_single_line_amended ['g', 'r', 'a', 'v', 'i', 't', 'y'] ['v'] (by decide)⟩

/-- Claim C10: Record with no pending record panics (modelled as `none`):
on a fresh scanner, after a Scan that returned false with nothing pending,
and on a second consecutive Record call (Record clears the pending record). -/
theorem C10_record_panics :
    (∀ input : Str, Scanner.Record (NewScanner input) = none) ∧
    (∀ sc sc1 : Scanner, sc.pending = none → Scanner.Scan sc = (false, sc1) →
      Scanner.Record sc1 = none) ∧
    (∀ (sc sc1 : Scanner) (r : Record), Scanner.Record sc = some (r, sc1) →
      Scanner.Record sc1 = none) := by
  refine ⟨fun input => rfl, ?_, ?_⟩
  · intro sc sc1 hp h
    unfold Scanner.Scan at h
    by_cases hc : sc.closed = true
    · rw [if_pos hc] at h
      injection h with h1 h2
      rw [← h2]
      unfold Scanner.Record
      rw [hp]
    · rw [if_neg hc] at h
      have hpend := scanLoop_false_pending _ _ _ h
      unfold Scanner.Record
      rw [hpend, hp]
  · intro sc sc1 r h
    unfold Scanner.Record at h
    cases hp : sc.pending with
    | none => rw [hp] at h; exact Option.noConfusion h
    | some r2 =>
      rw [hp] at h
      have h1 := Option.some.inj h
      have h2 : (⟨sc.closed, sc.err, sc.state, none⟩ : Scanner) = sc1 :=
        congrArg Prod.snd h1
      rw [← h2]
      rfl

/-- Witness for C10: a fresh scanner, a scanner after a false Scan, and a
scanner whose pending record was just taken. -/
theorem C10_record_panics_witness :
    Scanner.Record (NewScanner ['a']) = none ∧
    Scanner.Record ((Scanner.Scan (NewScanner [])).2) = none ∧
    Scanner.Record (⟨false, none, ⟨[], 0⟩, none⟩ : Scanner) = none :=
  ⟨C10_record_panics.1 ['a'],
   C10_record_panics.2.1 (NewScanner []) _ rfl (by decide),
   C10_record_panics.2.2 ⟨false, none, ⟨[], 0⟩, some ⟨['i'], ['t'], [(['k'], ['v'])]⟩⟩
     ⟨false, none, ⟨[], 0⟩, none⟩ ⟨['i'], ['t'], [(['k'], ['v'])]⟩ (by decide)⟩

/-- Claim C7 (counterexample): scanning the input at t = i with field k = v
consumes it entirely; it holds two logical newlines and no carriage return,
yet the line counter ends at 1: the newline terminating an unquoted value
is read raw by ReadString and never counted. -/
theorem C7_counterexample :
    (Scanner.Scan (NewScanner ("@t=i\n\tk:\tv\n".toList))).1 = true ∧
    (Scanner.Scan (NewScanner ("@t=i\n\tk:\tv\n".toList))).2.state.input = [] ∧
    (Scanner.Scan (NewScanner ("@t=i\n\tk:\tv\n".toList))).2.state.line = 1 ∧
    ("@t=i\n\tk:\tv\n".toList).count '\n' = 2 ∧
    ("@t=i\n\tk:\tv\n".toList).count '\r' = 0 ∧
    (1 : Nat) ≠ 2 := by
  decide

/-- Claim C7 amended: the dedicated primitive folds CR LF into one LF and
returns a lone CR followed by another rune literally; but the remainder of
an unquoted value is read raw line-at-a-time, and its terminating newline
leaves the line counter unchanged. -/
theorem C7_read_primitive_amended :
    (∀ cs : Str, readRune ('\r' :: '\n' :: cs) = some ('\n', cs)) ∧
    (∀ (c : Char) (cs : Str), c ≠ '\n' → readRune ('\r' :: c :: cs) = some ('\r', c :: cs)) ∧
    (∀ (f : Nat) (c : Char) (v rest : Str) (n : Nat),
      isSpace c = false → c ≠ '"' → '\n' ∉ c :: v →
      parseValue (f + 1) ⟨c :: v ++ '\n' :: rest, n⟩
        = (some (c :: v ++ ['\n']), ⟨rest, n⟩)) := by
  refine ⟨?_, ?_, ?_⟩
  · intro cs; simp [readRune]
  · intro c cs h; simp [readRune, h]
  · exact parseValue_raw

/-- Witness for the amended C7 at concrete characters. -/
theorem C7_read_primitive_amended_witness :
    readRune ('\r' :: '\n' :: ['a']) = some ('\n', ['a']) ∧
    readRune ('\r' :: 'x' :: ['a']) = some ('\r', 'x' :: ['a']) ∧
    parseValue (0 + 1) ⟨'v' :: [] ++ '\n' :: ['z'], 7⟩
      = (some ('v' :: [] ++ ['\n']), ⟨['z'], 7⟩) :=
  ⟨C7_read_primitive_amended.1 ['a'],
   C7_read_primitive_amended.2.1 'x' ['a'] (by decide),
   C7_read_primitive_amended.2.2 0 'v' [] ['z'] 7 (by decide) (by decide) (by decide)⟩

/-- Claim C3 (counterexample): on input where key k first receives v and
later appears with an empty value, the scanned record no longer maps k to
v: the empty value triggered Set, which deleted the key. -/
theorem C3_counterexample :
    scanOne ("@t=i\n\tk:\tv\n\tk:\n\ta:\tb\n".toList)
      = some ⟨['i'], ['t'], [(['a'], ['b'])]⟩ ∧
    Record.Get ⟨['i'], ['t'], [(['a'], ['b'])]⟩ ['k'] = [] ∧
    Record.Get ⟨['i'], ['t'], [(['a'], ['b'])]⟩ ['k'] ≠ ['v'] := by
  decide

/-- Claim C3 amended: a field line whose value is empty leads to a
Record.Set call with the empty value (not a skipped field), and Set with
an empty value deletes the key, so the earlier value is removed and Get
returns empty. -/
theorem C3_empty_value_amended :
    (∀ (f : Nat) (rec : Record) (k rest : Str) (n : Nat), fieldKeyOK k = true →
      parseFields (f + 1) rec ⟨'\t' :: (k ++ ':' :: '\n' :: rest), n⟩
        = parseFields f (rec.Set k []) ⟨rest, n + 1⟩) ∧
    (∀ (r : Record) (k : Str), RecordWF r = true → normKey k ≠ [] →
      (r.Set k []).Get k = [] ∧ normKey k ∉ (r.Set k []).Keys) := by
  constructor
  · intro f rec k rest n hk
    rw [parseFields]
    have hpk := parseKey_field (('\t' :: (k ++ ':' :: '\n' :: rest) : Str).length + 1)
      k ('\n' :: rest) n (by simp) hk
    simp only [hpk]
    have hpv := parseValue_newline (('\n' :: rest : Str).length) rest n
    simp at hpv
    simp [show (':' : Char) ≠ '@' by decide, show (':' : Char) ≠ '\n' by decide, hpv]
  · intro r k hWF hk
    obtain ⟨hs, hall⟩ := RecordWF_spec r hWF
    simp only [Record.Set]
    rw [if_neg hk, show trimSpace ([] : Str) = [] from rfl, if_pos rfl]
    exact ⟨get_erased r k hs,
      keys_not_mem r.id r.typ (mapErase (normKey k) r.data) (normKey k)
        (mapErase_key_ne (normKey k) r.data hs)⟩

/-- Witness for the amended C3 at concrete records and a concrete line. -/
theorem C3_empty_value_amended_witness :
    parseFields (0 + 1) ⟨['i'], ['t'], []⟩ ⟨'\t' :: (['k'] ++ ':' :: '\n' :: []), 0⟩
      = parseFields 0 (Record.Set ⟨['i'], ['t'], []⟩ ['k'] []) ⟨[], 0 + 1⟩ ∧
    ((Record.Set ⟨['i'], ['t'], [(['k'], ['v'])]⟩ ['k'] []).Get ['k'] = [] ∧
      normKey ['k'] ∉ (Record.Set ⟨['i'], ['t'], [(['k'], ['v'])]⟩ ['k'] []).Keys) :=
  ⟨C3_empty_value_amended.1 0 ⟨['i'], ['t'], []⟩ ['k'] [] 0 (by decide),
   C3_empty_value_amended.2 ⟨['i'], ['t'], [(['k'], ['v'])]⟩ ['k'] (by decide) (by decide)⟩

/-- Claim C8: fields never hold empty strings: NewRecord yields a
well-formed record, Set preserves well-formedness and stored values are
never empty, and Set with an empty or all-whitespace value removes the
normalized key, after which Get returns empty and Keys excludes it. -/
theorem C8_empty_field_invariant :
    (∀ (t i : Str) (r : Record), NewRecord t i = some r → RecordWF r = true) ∧
    (∀ (r : Record) (k v : Str), RecordWF r = true → RecordWF (r.Set k v) = true) ∧
    (∀ (r : Record) (k v : Str), RecordWF r = true →
      ∀ kv ∈ (r.Set k v).data, kv.2 ≠ []) ∧
    (∀ (r : Record) (k v : Str), RecordWF r = true → trimSpace v = [] →
      (r.Set k v).Get k = [] ∧ normKey k ∉ (r.Set k v).Keys) := by
  have hnew : ∀ (t i : Str) (r : Record), NewRecord t i = some r → RecordWF r = true := by
    intro t i r h
    unfold NewRecord at h
    by_cases h1 : normKey t = []
    · rw [if_pos h1] at h; exact Option.noConfusion h
    · rw [if_neg h1] at h
      by_cases h2 : normID i = []
      · rw [if_pos h2] at h; exact Option.noConfusion h
      · rw [if_neg h2] at h
        have h3 := Option.some.inj h
        rw [← h3]
        rfl
  have hset : ∀ (r : Record) (k v : Str), RecordWF r = true →
      RecordWF (r.Set k v) = true := by
    intro r k v hWF
    obtain ⟨hs, hall⟩ := RecordWF_spec r hWF
    simp only [Record.Set]
    by_cases h1 : normKey k = []
    · rw [if_pos h1]; exact hWF
    · rw [if_neg h1]
      by_cases h2 : trimSpace v = []
      · rw [if_pos h2]
        exact RecordWF_mk _ _ _ (mapErase_sorted _ _ hs)
          (fun kv hkv => hall kv (mapErase_mem _ _ kv hkv))
      · rw [if_neg h2]
        refine RecordWF_mk _ _ _ (mapInsert_sorted _ _ _ hs) ?_
        intro kv hkv
        rcases mapInsert_mem _ _ _ kv hkv with rfl | hkv2
        · exact ⟨h1, h2⟩
        · exact hall kv hkv2
  refine ⟨hnew, hset, ?_, ?_⟩
  · intro r k v hWF kv hkv
    exact ((RecordWF_spec _ (hset r k v hWF)).2 kv hkv).2
  · intro r k v hWF htv
    obtain ⟨hs, hall⟩ := RecordWF_spec r hWF
    simp only [Record.Set]
    by_cases h1 : normKey k = []
    · rw [if_pos h1]
      constructor
      · unfold Record.Get
        rw [h1]
        exact mapLookup_not_mem _ _ (fun p hp => (hall p hp).1)
      · rw [h1]
        exact keys_not_mem r.id r.typ r.data [] (fun p hp => (hall p hp).1)
    · rw [if_neg h1, if_pos htv]
      exact ⟨get_erased r k hs,
        keys_not_mem r.id r.typ (mapErase (normKey k) r.data) (normKey k)
          (mapErase_key_ne (normKey k) r.data hs)⟩

/-- Witness for C8 at concrete records, keys and values. -/
theorem C8_empty_field_invariant_witness :
    RecordWF ⟨['i'], ['t'], []⟩ = true ∧
    RecordWF (Record.Set ⟨['i'], ['t'], [(['a'], ['b'])]⟩ ['k'] ['v']) = true ∧
    ((['k'], ['v']) : Str × Str).2 ≠ [] ∧
    ((Record.Set ⟨['i'], ['t'], [(['a'], ['b'])]⟩ ['a'] [' ', ' ']).Get ['a'] = [] ∧
      normKey ['a'] ∉ (Record.Set ⟨['i'], ['t'], [(['a'], ['b'])]⟩ ['a'] [' ', ' ']).Keys) :=
  ⟨C8_empty_field_invariant.1 ['t'] ['i'] ⟨['i'], ['t'], []⟩ (by decide),
   C8_empty_field_invariant.2.1 ⟨['i'], ['t'], [(['a'], ['b'])]⟩ ['k'] ['v'] (by decide),
   C8_empty_field_invariant.2.2.1 ⟨['i'], ['t'], [(['a'], ['b'])]⟩ ['k'] ['v'] (by decide)
     (['k'], ['v']) (by decide),
   C8_empty_field_invariant.2.2.2 ⟨['i'], ['t'], [(['a'], ['b'])]⟩ ['a'] [' ', ' ']
     (by decide) (by decide)⟩

/-- Claim C4: a header line with an empty type or an ID that collapses to
empty is skipped as if it were not a header, scanning continuing on the
following lines; reaching end of stream while seeking a header closes the
scanner with Scan false and Err nil, never an error. -/
theorem C4_malformed_header_eof :
    (∀ (fuel : Nat) (w rest : Str) (n : Nat), '\n' ∉ w →
      parseHeader (fuel + 1) ⟨'@' :: '=' :: w ++ '\n' :: rest, n⟩
        = parseHeader fuel ⟨rest, n + 1⟩) ∧
    (∀ (fuel : Nat) (t sp rest : Str) (n : Nat), t ≠ [] →
      (∀ c ∈ t, isSpace c = false ∧ c ≠ '=') →
      (∀ c ∈ sp, isSpace c = true ∧ c ≠ '\n') →
      parseHeader (fuel + 1) ⟨'@' :: (t ++ '=' :: sp) ++ '\n' :: rest, n⟩
        = parseHeader fuel ⟨rest, n + 1⟩) ∧
    (∀ input : Str, (parseRecord ⟨input, 0⟩).1 = none →
      Scanner.Scan (NewScanner input)
        = (false, ⟨true, none, (parseRecord ⟨input, 0⟩).2, none⟩)) := by
  refine ⟨?_, ?_, ?_⟩
  · intro fuel w rest n hw
    have hnl : '\n' ∉ '@' :: '=' :: w := by
      intro hm
      rcases List.mem_cons.1 hm with he | hm
      · exact absurd he (by decide)
      rcases List.mem_cons.1 hm with he | hm
      · exact absurd he (by decide)
      exact hw hm
    have hline := readLine_append ('@' :: '=' :: w) rest hnl
    have htrim : trimSpace (('@' :: '=' :: w) ++ ['\n']) = '@' :: '=' :: trimRight w := by
      rw [trimSpace_append_nl]
      unfold trimSpace
      rw [trimRight_cons _ _ (by decide), trimRight_cons _ _ (by decide),
        trimLeft_cons _ _ (by decide)]
    rw [parseHeader]
    simp only [List.cons_append] at hline htrim
    simp [hline, htrim, idxOf]
  · intro fuel t sp rest n htne hta hsp
    have hnl : '\n' ∉ '@' :: (t ++ '=' :: sp) := by
      intro hm
      rcases List.mem_cons.1 hm with he | hm
      · exact absurd he (by decide)
      rcases List.mem_append.1 hm with hm | hm
      · exact absurd (hta '\n' hm).1 (by decide)
      rcases List.mem_cons.1 hm with he | hm
      · exact absurd he (by decide)
      · exact (hsp '\n' hm).2 rfl
    have hline := readLine_append ('@' :: (t ++ '=' :: sp)) rest hnl
    have htr1 : trimRight ('=' :: sp) = ['='] := by
      have h0 : trimRight sp = [] := trimRight_spaces sp (fun c hc => (hsp c hc).1)
      show (if trimRight sp = [] ∧ isSpace '=' then [] else '=' :: trimRight sp) = ['=']
      rw [h0]
      simp [show isSpace '=' = false by decide]
    have htrim : trimSpace (('@' :: (t ++ '=' :: sp)) ++ ['\n'])
        = '@' :: (t ++ ['=']) := by
      rw [trimSpace_append_nl]
      unfold trimSpace
      rw [trimRight_cons _ _ (by decide),
        trimRight_append t _ (fun c hc => (hta c hc).1), htr1,
        trimLeft_cons _ _ (by decide)]
    have hidx : idxOf '=' (t ++ ['=']) = some t.length := by
      have h1 := idxOf_append '=' t [] (fun hm => (hta '=' hm).2 rfl)
      simpa using h1
    have hlen1 : ¬ t.length < 1 := by
      cases t with
      | nil => exact absurd rfl htne
      | cons c t2 => simp
    have htake : (t ++ ['=']).take t.length = t := List.take_left t ['=']
    have hdrop : (t ++ ['=']).drop (t.length + 1) = [] := by
      rw [show t.length + 1 = (t ++ ['=']).length by simp]
      exact List.drop_length _
    have hnewr : NewRecord t [] = none := by
      unfold NewRecord
      rw [normKey_nospace t (fun c hc => (hta c hc).1) htne,
        if_neg (toLower_ne_nil t htne)]
      rfl
    rw [parseHeader]
    simp only [List.cons_append, List.append_assoc] at hline htrim
    simp [hline, htrim, hidx, hlen1, htake, hdrop, hnewr,
      show ('@' : Char) ≠ '#' by decide]
  · intro input h
    unfold Scanner.Scan NewScanner
    rw [if_neg (by simp)]
    rw [scanLoop]
    obtain ⟨st2, hst⟩ : ∃ st2, parseRecord ⟨input, 0⟩ = (none, st2) := by
      refine ⟨(parseRecord ⟨input, 0⟩).2, ?_⟩
      conv_lhs => rw [show parseRecord ⟨input, 0⟩
        = ((parseRecord ⟨input, 0⟩).1, (parseRecord ⟨input, 0⟩).2) from rfl]
      rw [h]
    simp [hst]

/-- Witness for C4 at the two malformed header shapes and the empty input. -/
theorem C4_malformed_header_eof_witness :
    parseHeader (0 + 1) ⟨'@' :: '=' :: ['o', 'n', 'l', 'y', 'i', 'd'] ++ '\n' :: [], 0⟩
      = parseHeader 0 ⟨[], 0 + 1⟩ ∧
    parseHeader (0 + 1) ⟨'@' :: (['t', 'y', 'p', 'e'] ++ '=' :: []) ++ '\n' :: [], 0⟩
      = parseHeader 0 ⟨[], 0 + 1⟩ ∧
    Scanner.Scan (NewScanner []) = (false, ⟨true, none, (parseRecord ⟨[], 0⟩).2, none⟩) :=
  ⟨C4_malformed_header_eof.1 0 ['o', 'n', 'l', 'y', 'i', 'd'] [] 0 (by decide),
   C4_malformed_header_eof.2.1 0 ['t', 'y', 'p', 'e'] [] [] 0 (by decide) (by decide)
     (by decide),
   C4_malformed_header_eof.2.2 [] (by decide)⟩

/-- Claim C2 (counterexample): a quoted value holding a single embedded
newline plus indentation decodes to a value with an embedded newline, not
to a single space as the claim states. -/
theorem C2_counterexample :
    scanOne ("@t=i\n\tk:\t\"a\n\t\tb\"\n".toList)
      = some ⟨['i'], ['t'], [(['k'], ['a', '\n', 'b'])]⟩ ∧
    (['a', '\n', 'b'] : Str) ≠ ['a', ' ', 'b'] := by
  decide

/-- Claim C2 amended: re-encoding a two-word value with an embedded newline
emits one newline followed by a two-tab indent (a wrapped line, not a
blank-line separated block), and decoding that quoted block restores the
embedded newline. -/
theorem C2_paragraph_amended (w1 w2 : Str) (h1 : wordNE w1 = true)
    (h2 : wordNE w2 = true) :
    wq true false false (w1 ++ '\n' :: w2) = w1 ++ '\n' :: '\t' :: '\t' :: w2 ∧
    (∀ (rest : Str) (n fuel : Nat), (w1 ++ '\n' :: '\t' :: '\t' :: w2).length < fuel →
      ∃ m, quoteValue fuel [] true false false
          ⟨(w1 ++ '\n' :: '\t' :: '\t' :: w2) ++ '"' :: rest, n⟩
        = (some (w1 ++ '\n' :: w2), ⟨rest, m⟩)) := by
  obtain ⟨hn1, ha1⟩ := wordNE_spec w1 h1
  obtain ⟨hn2, ha2⟩ := wordNE_spec w2 h2
  have hcv : canonVal (w1 ++ '\n' :: w2) = true :=
    canon_two_words w1 w2 (fun c hc => (ha1 c hc).1) (fun c hc => (ha2 c hc).1) hn1 hn2
  have henc : encCanon (w1 ++ '\n' :: w2) = w1 ++ '\n' :: '\t' :: '\t' :: w2 := by
    rw [encCanon_append, encCanon_cons, encCanon_word w1 ha1, encCanon_word w2 ha2,
      show encChar '\n' = ['\n', '\t', '\t'] by decide]
    rfl
  constructor
  · rw [wq_canon _ hcv, henc]
  · intro rest n fuel hf
    have hd := qv_decode (w1 ++ '\n' :: w2) rest n fuel hcv (by rw [henc]; exact hf)
    rw [henc] at hd
    exact hd

/-- Witness for the amended C2 at the value a newline b. -/
theorem C2_paragraph_amended_witness :
    wq true false false (['a'] ++ '\n' :: ['b']) = ['a'] ++ '\n' :: '\t' :: '\t' :: ['b'] ∧
    ∃ m, quoteValue 9 [] true false false
        ⟨(['a'] ++ '\n' :: '\t' :: '\t' :: ['b']) ++ '"' :: [], 0⟩
      = (some (['a'] ++ '\n' :: ['b']), ⟨[], m⟩) :=
  ⟨(C2_paragraph_amended ['a'] ['b'] (by decide) (by decide)).1,
   (C2_paragraph_amended ['a'] ['b'] (by decide) (by decide)).2 [] 0 9 (by decide)⟩

/-- Claim C1 (counterexample): the record at t = i with the single field k
whose stored value is x surrounded by quote characters has non-empty type,
id and one field, yet writing it and scanning the output yields the value
without the quotes. -/
theorem C1_counterexample :
    scanOne (Writer.Write ⟨['i'], ['t'], [(['k'], ['"', 'x', '"'])]⟩)
      = some ⟨['i'], ['t'], [(['k'], ['x'])]⟩ ∧
    Record.Get ⟨['i'], ['t'], [(['k'], ['x'])]⟩ ['k'] = ['x'] ∧
    Record.Get ⟨['i'], ['t'], [(['k'], ['"', 'x', '"'])]⟩ ['k'] = ['"', 'x', '"'] ∧
    (['x'] : Str) ≠ ['"', 'x', '"'] := by
  decide

/-- Claim C1 amended: for every record in the stored normalized form the
Record API maintains, whose type holds no equal sign, whose keys hold no
colon and do not begin a comment or header, whose single-line values do
not begin with a quote and whose multiline values are canonical
(single-space or single-newline separators), writing with Writer.Write and
scanning the output yields a record with identical type, identical id and
identical Get value for every key. -/
theorem C1_roundtrip_amended (r : Record) (h : recordOK r = true) :
    ∃ r1 : Record, scanOne (Writer.Write r) = some r1 ∧ r1.typ = r.typ ∧
      r1.id = r.id ∧ ∀ key : Str, r1.Get key = r.Get key :=
  ⟨r, roundtrip_scanOne r h, rfl, rfl, fun _ => rfl⟩

/-- Witness for the amended C1 at a record with a long key, a short key and
a multiline value. -/
theorem C1_roundtrip_amended_witness :
    ∃ r1 : Record,
      scanOne (Writer.Write ⟨['M', 'y', ' ', 'I', 'd'], ['s', 't', 'a', 'r'],
        [(['g', 'r', 'a', 'v', 'i', 't', 'y'], ['2', '7']),
         (['k'], ['a', '\n', 'b'])]⟩)
        = some r1 ∧
      r1.typ = (⟨['M', 'y', ' ', 'I', 'd'], ['s', 't', 'a', 'r'],
        [(['g', 'r', 'a', 'v', 'i', 't', 'y'], ['2', '7']),
         (['k'], ['a', '\n', 'b'])]⟩ : Record).typ ∧
      r1.id = (⟨['M', 'y', ' ', 'I', 'd'], ['s', 't', 'a', 'r'],
        [(['g', 'r', 'a', 'v', 'i', 't', 'y'], ['2', '7']),
         (['k'], ['a', '\n', 'b'])]⟩ : Record).id ∧
      ∀ key : Str, r1.Get key = (⟨['M', 'y', ' ', 'I', 'd'], ['s', 't', 'a', 'r'],
        [(['g', 'r', 'a', 'v', 'i', 't', 'y'], ['2', '7']),
         (['k'], ['a', '\n', 'b'])]⟩ : Record).Get key :=
  C1_roundtrip_amended ⟨['M', 'y', ' ', 'I', 'd'], ['s', 't', 'a', 'r'],
    [(['g', 'r', 'a', 'v', 'i', 't', 'y'], ['2', '7']),
     (['k'], ['a', '\n', 'b'])]⟩ (by decide)

/-- Claim C6: when the stream ends inside a quoted value, the text
accumulated so far is returned as the value; on a record whose quoted
value is missing its closing quote, the record is still produced with
that value, Scan returning true and Err nil. -/
theorem C6_unterminated_quote (w : Str) (hw : wordNE w = true) :
    (∀ (fuel : Nat) (b : Str) (fi sp ln : Bool) (n : Nat), 0 < fuel → b ≠ [] →
      quoteValue fuel b fi sp ln ⟨[], n⟩ = (some b, ⟨[], n⟩)) ∧
    scanOne ('@' :: 't' :: '=' :: 'i' :: '\n' :: '\t' :: 'k' :: ':' :: '\t' :: '"' :: w)
      = some ⟨['i'], ['t'], [(['k'], w)]⟩ ∧
    (Scanner.Scan (NewScanner
        ('@' :: 't' :: '=' :: 'i' :: '\n' :: '\t' :: 'k' :: ':' :: '\t' :: '"' :: w))).2.err
      = none := by
  obtain ⟨hwne, hwall⟩ := wordNE_spec w hw
  refine ⟨fun fuel b fi sp ln n hf hb => qv_eof fuel b fi sp ln n hf hb, ?_⟩
  have hpf : ∃ m, parseFields (('\t' :: 'k' :: ':' :: '\t' :: '"' :: w : Str).length + 1)
      ⟨['i'], ['t'], []⟩ ⟨'\t' :: 'k' :: ':' :: '\t' :: '"' :: w, 1⟩
      = (⟨['i'], ['t'], [(['k'], w)]⟩, ⟨[], m⟩) := by
    have hkf := parseKey_field (('\t' :: 'k' :: ':' :: '\t' :: '"' :: w : Str).length + 1)
      ['k'] ('\t' :: '"' :: w) 1 (by simp only [List.length_cons]; omega) (by decide)
    simp only [List.cons_append, List.nil_append] at hkf
    have hpv := parseValue_quoted (('\t' :: '"' :: w : Str).length + 1) '\t' w 1
      (by simp only [List.length_cons]; omega) (by decide) (by decide) (by decide)
    have hqw := qv_word_eof (w.length + 1) w [] true 1 hwall (by omega)
      (by simpa using hwne)
    simp only [List.nil_append] at hqw
    have hset : Record.Set ⟨['i'], ['t'], []⟩ ['k'] w = ⟨['i'], ['t'], [(['k'], w)]⟩ := by
      simp only [Record.Set]
      rw [show normKey ['k'] = ['k'] from by decide,
        word_trim w (fun c hc => (hwall c hc).1),
        if_neg (show (['k'] : Str) ≠ [] by decide), if_neg hwne]
      rfl
    obtain ⟨m2, hdone⟩ := parseFields_done [] (Or.inl rfl) ⟨['i'], ['t'], [(['k'], w)]⟩ 1
      (w.length + 5) (by simp only [List.length_nil]; omega)
    refine ⟨m2, ?_⟩
    rw [show (('\t' :: 'k' :: ':' :: '\t' :: '"' :: w : Str)).length + 1 = (w.length + 5) + 1
      from by simp only [List.length_cons]]
    rw [parseFields]
    simp only [hkf]
    simp [show (':' : Char) ≠ '@' by decide, show (':' : Char) ≠ '\n' by decide]
    simp at hpv hqw
    simp [hpv, hqw, hset, hdone]
  obtain ⟨m, hpf2⟩ := hpf
  have hph := parseHeader_good
    (('@' :: 't' :: '=' :: 'i' :: '\n' :: '\t' :: 'k' :: ':' :: '\t' :: '"' :: w : Str).length + 1)
    ['t'] ['i'] ('\t' :: 'k' :: ':' :: '\t' :: '"' :: w) 0 (Nat.succ_pos _)
    (by decide) (by decide)
  simp only [List.cons_append, List.nil_append] at hph
  have hpr : parseRecord
      ⟨'@' :: 't' :: '=' :: 'i' :: '\n' :: '\t' :: 'k' :: ':' :: '\t' :: '"' :: w, 0⟩
      = (some ⟨['i'], ['t'], [(['k'], w)]⟩, ⟨[], m⟩) := by
    unfold parseRecord
    simp only [hph]
    simp only [hpf2]
  have hsc : Scanner.Scan (NewScanner
      ('@' :: 't' :: '=' :: 'i' :: '\n' :: '\t' :: 'k' :: ':' :: '\t' :: '"' :: w))
      = (true, ⟨false, none, ⟨[], m⟩, some ⟨['i'], ['t'], [(['k'], w)]⟩⟩) := by
    unfold Scanner.Scan NewScanner
    rw [if_neg (by simp)]
    rw [scanLoop]
    simp [hpr]
  constructor
  · unfold scanOne
    rw [hsc]
    rfl
  · rw [hsc]


/-- Witness for C6 at the value v with its closing quote missing. -/
theorem C6_unterminated_quote_witness :
    (quoteValue 1 ['b'] true false false ⟨[], 0⟩ = (some ['b'], ⟨[], 0⟩)) ∧
    scanOne ('@' :: 't' :: '=' :: 'i' :: '\n' :: '\t' :: 'k' :: ':' :: '\t' :: '"' :: ['v'])
      = some ⟨['i'], ['t'], [(['k'], ['v'])]⟩ ∧
    (Scanner.Scan (NewScanner
        ('@' :: 't' :: '=' :: 'i' :: '\n' :: '\t' :: 'k' :: ':' :: '\t' :: '"' :: ['v']))).2.err
      = none :=
  ⟨(C6_unterminated_quote ['v'] (by decide)).1 1 ['b'] true false false 0 (by decide)
      (by decide),
   (C6_unterminated_quote ['v'] (by decide)).2.1,
   (C6_unterminated_quote ['v'] (by decide)).2.2⟩
